import Mathlib

/-
Verification development for the Credit-card-recommender repository.

Shallow embedding of `src/main.py` and `src/response_formatter.py`.
External collaborators (the Streamlit UI, the hosted Gemini SDK, the
`aiohttp` network layer and the BeautifulSoup HTML parser) are modelled
as oracles/parameters; everything that is code of this repository is
translated directly.
-/

set_option maxRecDepth 8000

/-! ### Python string primitives used throughout `main.py` -/

/-- Python whitespace (`str.strip`, `str.split()`, regex `\s`), ASCII range. -/
def isPySpace (c : Char) : Bool :=
  c = ' ' || c = '\t' || c = '\n' || c = '\r' || c = '\x0b' || c = '\x0c'

/-- `str.strip()` on a character list. -/
def pyStripL (l : List Char) : List Char :=
  ((l.dropWhile isPySpace).reverse.dropWhile isPySpace).reverse

/-- Python `str.strip()`. -/
def pyStrip (s : String) : String := ⟨pyStripL s.data⟩

/-- Python `str.lower()` (ASCII case folding). -/
def toLowerL (l : List Char) : List Char := l.map Char.toLower

/-- Python `str.lower()`. -/
def pyLower (s : String) : String := ⟨toLowerL s.data⟩

/-- Core of Python `str.replace`: replace every non-overlapping occurrence of
`o :: old` (scanning left to right) by `new`.  The extra `Nat` is structural
fuel (one unit per character scanned); it is initialized to the length of the
subject so it never runs out. -/
def replaceAllGo (o : Char) (old new : List Char) : Nat → List Char → List Char
  | _, [] => []
  | 0, l => l
  | fuel + 1, c :: rest =>
    if (o :: old).isPrefixOf (c :: rest) then
      new ++ replaceAllGo o old new fuel (rest.drop old.length)
    else
      c :: replaceAllGo o old new fuel rest

/-- `str.replace` on character lists (pattern `o :: old`). -/
def replaceAllL (o : Char) (old new l : List Char) : List Char :=
  replaceAllGo o old new l.length l

/-- Python `str.replace(old, new)` (for nonempty `old`, the only way the
embedded code calls it). -/
def pyReplace (old new s : String) : String :=
  match old.data with
  | [] => s
  | o :: os => ⟨replaceAllL o os new.data s.data⟩

/-- Python's substring test `needle in hay` (contiguous occurrence; the empty
needle always occurs). -/
def isSubL (needle : List Char) : List Char → Bool
  | [] => needle.isEmpty
  | c :: rest => needle.isPrefixOf (c :: rest) || isSubL needle rest

/-- Python `str.split()`: the maximal whitespace-free runs, in order (`cur`
accumulates the current run reversed). -/
def splitWsGo (cur : List Char) : List Char → List (List Char)
  | [] => if cur.isEmpty then [] else [cur.reverse]
  | c :: rest =>
    if isPySpace c then
      if cur.isEmpty then splitWsGo [] rest
      else cur.reverse :: splitWsGo [] rest
    else splitWsGo (c :: cur) rest

/-! ### `src/main.py` lines 113-166: the persona prompt -/

/-- `CREDIT_CARD_EXPERT_PROMPT` (src/main.py lines 113-166). -/
def CREDIT_CARD_EXPERT_PROMPT : String := "You are a concise credit card expert focusing on the Indian market. ALWAYS use tables for comparisons, never use bullet points or paragraphs for comparing features.

RESPONSE FORMAT RULES:
1. ALL comparisons MUST be in table format
2. NEVER use bullet points or paragraphs for comparisons
3. Use tables with the following structure:

### Basic Features
| Feature | Card 1 | Card 2 |
|---------|--------|--------|
| Annual Fee | ₹XXX | ₹YYY |
| Welcome Benefits | Detail | Detail |
| Income Required | ₹XXX | ₹YYY |

### Reward Rates
| Category | Card 1 | Card 2 |
|----------|--------|--------|
| General Spend | X% | Y% |
| Dining | X% | Y% |
| Travel | X% | Y% |
| Shopping | X% | Y% |

### Additional Benefits
| Benefit | Card 1 | Card 2 |
|---------|--------|--------|
| Lounge Access | Detail | Detail |
| Insurance | Detail | Detail |
| Offers | Detail | Detail |

### Best Suited For
| Use Case | Best Card | Reason |
|----------|-----------|---------|
| Overall | Name | Why |
| Rewards | Name | Why |
| Travel | Name | Why |
| Shopping | Name | Why |

IMPORTANT:
- Use ₹ symbol for all amounts
- Include actual numbers/percentages
- Present ALL comparisons in tables
- No bullet points or paragraphs for comparing features
- Add table headers for each comparison section
- Ensure proper markdown table formatting

Remember to:
- Keep Indian context central
- Use local examples
- Reference local regulations
- Consider Indian spending patterns

Before answering, ask me if you have any questions to better answer my query.

"

/-- The response-structure addendum appended to the persona prompt in the
first history message (src/main.py lines 408-428). -/
def RESPONSE_STRUCTURE_ADDENDUM : String := "

IMPORTANT: Always provide comprehensive responses following this exact structure for card reviews and comparisons:

1. Start with a brief introduction
2. Follow the section headers exactly:
   - ## Key Features and Benefits
   - ## Milestone Benefits
   - ## Reward Structure (with table)
   - ## Fees and Charges (with table)
   - ## Eligibility Criteria
   - ## Current Updates
   - ## Comparison with Other Cards (with table)
   - ## Who Should Apply
   - ## When Not to Apply
   - ## Conclusion
   - ## Additional Tips

3. Use tables for all numerical comparisons
4. Include specific numbers and current data
5. End with actionable recommendations"

/-- The canned first model message in the initial history
(src/main.py lines 432-442). -/
def INITIAL_MODEL_GREETING : String := "Hello! 👋 I\x27m your Indian Credit Card Expert, and I\x27m here to help you make informed decisions about credit cards in India. I\x27ll provide detailed, structured responses following a comprehensive format that covers all important aspects of credit cards.

For every card review and comparison, I will include:
- Complete feature analysis with current data
- Detailed reward structures and benefits
- Comprehensive fee breakdowns
- Clear eligibility criteria
- Up-to-date comparisons
- Specific recommendations

How may I assist you today?"

/-! ### Chat session and per-browser-session state (src/main.py lines 390-449) -/

/-- One message of the SDK chat history: a role (`"user"` / `"model"`) and the
text of its single part. -/
structure ChatMessage where
  role : String
  text : String
deriving DecidableEq

/-- The external model SDK chat object, reduced to the conversation history it
holds. -/
structure ChatSession where
  history : List ChatMessage
deriving DecidableEq

/-- The two seed messages passed as `history=[...]` to `model.start_chat`
(src/main.py lines 404-445): the persona prompt (plus addendum) and the canned
greeting. -/
def initialChatHistory : List ChatMessage :=
  [⟨"user", CREDIT_CARD_EXPERT_PROMPT ++ RESPONSE_STRUCTURE_ADDENDUM⟩,
   ⟨"model", INITIAL_MODEL_GREETING⟩]

/-- `model.start_chat(history=...)` (src/main.py line 404). -/
def startChatSession : ChatSession := ⟨initialChatHistory⟩

/-- The external SDK's `chat_session.send_message`: appends the user prompt and
the model's reply to the held history.  The reply text is an oracle input. -/
def sdkSendMessage (cs : ChatSession) (prompt reply : String) : ChatSession :=
  ⟨cs.history ++ [⟨"user", prompt⟩, ⟨"model", reply⟩]⟩

/-- The Streamlit session state created in src/main.py lines 390-449:
the chat object plus the two rate-limit tracking fields
`last_request_time` and `requests_in_minute` (lines 448-449). -/
structure SessionState where
  chat_session : ChatSession
  last_request_time : Int
  requests_in_minute : Int
deriving DecidableEq

/-- The session state after first-run initialization
(src/main.py lines 390-449). -/
def initSessionState : SessionState := ⟨startChatSession, 0, 0⟩

/-! ### The user-input handler (src/main.py lines 476-517) -/

/-- Outcome of handling one submitted prompt. -/
inductive RequestOutcome where
  /-- The rate-limit branch fired: an error is shown and nothing is sent
  (src/main.py lines 483-485). -/
  | rejected (waitSeconds : Int)
  /-- `enhance_with_web_search` raised: error shown, request un-counted
  (lines 503-506). -/
  | webSearchFailed
  /-- The combined text displayed as the assistant's answer (lines 507-513). -/
  | replied (displayed : String)
  /-- `send_message` raised; the exception escapes `process_request`
  (line 507). -/
  | sendRaised
deriving DecidableEq

/-- The user-input handler, src/main.py lines 476-517.  `now` is `time.time()`
(modelled at integer resolution), `webInfo` is the result of
`await enhance_with_web_search(user_prompt)` (`none` = it raised), and
`modelReply` is the SDK reply text (`none` = `send_message` raised). -/
def handleUserInput (st : SessionState) (now : Int) (userPrompt : String)
    (webInfo : Option String) (modelReply : Option String) :
    RequestOutcome × SessionState :=
  let st1 := if now - st.last_request_time > 60 then
      { st with requests_in_minute := 0, last_request_time := now }
    else st
  if st1.requests_in_minute ≥ 10 then
    (.rejected (60 - (now - st1.last_request_time)), st1)
  else
    let st2 := { st1 with requests_in_minute := st1.requests_in_minute + 1 }
    match webInfo with
    | none => (.webSearchFailed,
        { st2 with requests_in_minute := st2.requests_in_minute - 1 })
    | some w =>
      match modelReply with
      | none => (.sendRaised, st2)
      | some reply =>
        let enhanced := "For Indian credit cards only: " ++ userPrompt
        let combined := reply ++ w
        (.replied combined,
          { st2 with
              chat_session := sdkSendMessage st2.chat_session enhanced reply,
              requests_in_minute := st2.requests_in_minute - 1 })

/-! ### Claims C1, C2, C8 -/

/-- The session state reached after ten prompts whose `send_message` call
raised (so the handler incremented `requests_in_minute` without the
compensating decrement), all arriving at `time.time() = 30`. -/
def tenFailedRequestsState : SessionState :=
  (List.range 10).foldl
    (fun st _ => (handleUserInput st 30 "compare cards" (some "") none).2)
    initSessionState

/-- Counterexample to claim C1: in the reachable state
`tenFailedRequestsState` the handler rejects the eleventh prompt with a
"Rate limit exceeded" wait of 30 seconds, so this code does enforce a local
rate limit. -/
theorem C1_counterexample :
    (handleUserInput tenFailedRequestsState 30 "compare cards" (some "") none).1 =
      RequestOutcome.rejected 30 := by decide

/-- Claim C1 (amended): the program enforces a local rate limit of 10 requests
per rolling minute: the user-input handler rejects a prompt (showing a wait
message, forwarding nothing) exactly when the minute window has not expired
and the locally tracked `requests_in_minute` has reached 10. -/
theorem C1_local_rate_limit (st : SessionState) (now : Int) (p : String)
    (wi : Option String) (r : Option String) :
    (∃ w, (handleUserInput st now p wi r).1 = RequestOutcome.rejected w) ↔
      (now - st.last_request_time ≤ 60 ∧ 10 ≤ st.requests_in_minute) := by
  by_cases h1 : now - st.last_request_time > 60
  · have h1' : ¬ (now - st.last_request_time ≤ 60) := by omega
    cases wi <;> cases r <;> simp [handleUserInput, h1, h1']
  · by_cases h2 : st.requests_in_minute ≥ 10
    · simp only [handleUserInput, if_neg h1, if_pos h2]
      constructor
      · intro _; exact ⟨by omega, h2⟩
      · intro _; exact ⟨60 - (now - st.last_request_time), rfl⟩
    · cases wi <;> cases r <;> simp [handleUserInput, h1, h2]

/-- Counterexample to claim C2: the user-input handler updates the
session-state field `requests_in_minute` (a field other than the chat-history
object), from 0 at initialization to 1 after a prompt whose `send_message`
raised. -/
theorem C2_counterexample :
    (handleUserInput initSessionState 30 "q" (some "") none).2.requests_in_minute = 1 ∧
      initSessionState.requests_in_minute = 0 := by decide

/-- Claim C2 (amended): per-browser-session state consists of the SDK
chat-history object plus exactly two further mutable fields created at
initialization, `last_request_time` and `requests_in_minute`; the handler
updates those rate-limit fields, and the chat history changes only by the SDK
appending the forwarded prompt and its reply. -/
theorem C2_session_state_fields (st : SessionState) (now : Int) (p : String)
    (wi : Option String) (r : Option String) :
    initSessionState = ⟨startChatSession, 0, 0⟩ ∧
    (handleUserInput st now p wi r).2.last_request_time =
      (if now - st.last_request_time > 60 then now else st.last_request_time) ∧
    ((handleUserInput st now p wi r).2.chat_session = st.chat_session ∨
      ∃ w reply, wi = some w ∧ r = some reply ∧
        (handleUserInput st now p wi r).2.chat_session =
          sdkSendMessage st.chat_session ("For Indian credit cards only: " ++ p) reply) := by
  refine ⟨rfl, ?_, ?_⟩
  · by_cases h1 : now - st.last_request_time > 60 <;>
      by_cases h2 : st.requests_in_minute ≥ 10 <;>
      cases wi <;> cases r <;>
      simp [handleUserInput, h1, h2]
  · by_cases h1 : now - st.last_request_time > 60 <;>
      by_cases h2 : st.requests_in_minute ≥ 10 <;>
      cases wi <;> cases r <;>
      simp [handleUserInput, h1, h2]

/-- Claim C8: in every newly created chat session, the persona instruction
string (`CREDIT_CARD_EXPERT_PROMPT` plus the response-structure addendum) is
the first history message, and it remains the first message across any
sequence of sends — so it precedes every user prompt forwarded to the model. -/
theorem C8_persona_prompt_first (sends : List (String × String)) :
    startChatSession.history.head? =
      some ⟨"user", CREDIT_CARD_EXPERT_PROMPT ++ RESPONSE_STRUCTURE_ADDENDUM⟩ ∧
    (sends.foldl (fun cs pr => sdkSendMessage cs pr.1 pr.2) startChatSession).history.head? =
      some ⟨"user", CREDIT_CARD_EXPERT_PROMPT ++ RESPONSE_STRUCTURE_ADDENDUM⟩ := by
  constructor
  · rfl
  · have key : ∀ (l : List (String × String)) (cs : ChatSession) (m : ChatMessage),
        cs.history.head? = some m →
        (l.foldl (fun cs pr => sdkSendMessage cs pr.1 pr.2) cs).history.head? = some m := by
      intro l
      induction l with
      | nil => intro cs m h; exact h
      | cons x xs ih =>
        intro cs m h
        apply ih
        cases cs with
        | mk hist =>
          cases hist with
          | nil => simp at h
          | cons a t => simpa [sdkSendMessage] using h
    exact key sends startChatSession _ rfl

/-! ### Trusted domains (src/main.py lines 29-58) -/

/-- `PRIMARY_SOURCES` (src/main.py lines 29-32). -/
def PRIMARY_SOURCES : List String := ["cardinsider.com", "bankbazaar.com"]

/-- `BANK_DOMAINS` (src/main.py lines 34-48). -/
def BANK_DOMAINS : List String :=
  ["hdfcbank.com", "sbicard.com", "icicibank.com", "axisbank.com",
   "idfcfirstbank.com", "indusind.com", "hsbc.co.in", "sc.com", "kotak.com",
   "yesbank.in", "rblbank.com", "creditcardinsider.in", "cardexpert.in"]

/-- Characters admissible in a URL scheme (`urllib.parse`). -/
def isSchemeChar (c : Char) : Bool := c.isAlphanum || c = '+' || c = '-' || c = '.'

/-- Model of `urllib.parse.urlparse(url).netloc`: strip a valid scheme ending
at the first ':', then, if the remainder starts with "//", the netloc is what
follows up to the first '/', '?' or '#' (empty otherwise).  Note the netloc
(unlike the hostname) retains userinfo and port. -/
def netlocL (l : List Char) : List Char :=
  let pre := l.takeWhile (· ≠ ':')
  let post := l.dropWhile (· ≠ ':')
  let rest :=
    match post with
    | ':' :: r =>
      if !pre.isEmpty && pre.all isSchemeChar && (pre.headD ' ').isAlpha then r else l
    | _ => l
  match rest with
  | '/' :: '/' :: r => r.takeWhile (fun c => !(c = '/' || c = '?' || c = '#'))
  | _ => []

/-- `urlparse(url).netloc` on strings. -/
def netloc (url : String) : String := ⟨netlocL url.data⟩

/-- `is_trusted_domain` (src/main.py lines 50-58): lowercase the parsed
netloc, delete every occurrence of `"www."` (Python `str.replace` replaces
all occurrences), and test membership in the two allow-lists. -/
def is_trusted_domain (url : String) : Bool :=
  let domain := pyReplace "www." "" (pyLower (netloc url))
  PRIMARY_SOURCES.contains domain || BANK_DOMAINS.contains domain

/-- The predicate described by claim C4's wording (for comparison with the
code's `is_trusted_domain`): the URL's hostname — netloc without userinfo and
port — lowercased and with one optional leading `"www."` removed, lies in the
allow-lists. -/
def specHostname (url : String) : String :=
  let n := (netloc url).data
  let n := match n.findIdx? (· = '@') with
    | some i => n.drop (i + 1)
    | none => n
  ⟨n.takeWhile (· ≠ ':')⟩

/-- Remove one leading `"www."` if present (claim C4's wording). -/
def stripLeadingWww (s : String) : String :=
  if "www.".data.isPrefixOf s.data then ⟨s.data.drop 4⟩ else s

/-- The trusted-domain predicate as claim C4 states it. -/
def specTrustedDomain (url : String) : Bool :=
  let h := stripLeadingWww (pyLower (specHostname url))
  PRIMARY_SOURCES.contains h || BANK_DOMAINS.contains h

/-! ### URL construction in `perform_web_search` (src/main.py lines 185-216) -/

/-- Primary source paths (src/main.py lines 188-194). -/
def primary_paths : List String :=
  ["/credit-card/compare/", "/credit-cards/details/", "/credit-card-reviews/",
   "/credit-cards/search", "/credit-cards"]

/-- Verification source paths (src/main.py lines 197-202). -/
def verification_paths : List String :=
  ["/credit-cards/benefits", "/credit-card/offers", "/credit-card/rewards",
   "/cards/compare"]

/-- `query.replace(' ', '-').lower()` (src/main.py line 206). -/
def querySlug (query : String) : String := pyLower (pyReplace " " "-" query)

/-- `primary_urls` (src/main.py lines 205-209): outer loop over
`PRIMARY_SOURCES`, inner loop over `primary_paths`. -/
def primary_urls (query : String) : List String :=
  PRIMARY_SOURCES.flatMap (fun domain =>
    primary_paths.map (fun path => "https://" ++ domain ++ path ++ querySlug query))

/-- `verification_urls` (src/main.py lines 212-216): the first five bank
domains crossed with the verification paths. -/
def verification_urls : List String :=
  (BANK_DOMAINS.take 5).flatMap (fun domain =>
    verification_paths.map (fun path => "https://" ++ domain ++ path))

/-! ### Netloc computation lemmas -/

theorem takeWhile_append_all {p : Char → Bool} (a b : List Char) (h : a.all p = true) :
    (a ++ b).takeWhile p = a ++ b.takeWhile p := by
  induction a with
  | nil => simp
  | cons x xs ih =>
    simp only [List.all_cons, Bool.and_eq_true] at h
    simp [List.takeWhile_cons, h.1, ih h.2]

theorem dropWhile_append_all {p : Char → Bool} (a b : List Char) (h : a.all p = true) :
    (a ++ b).dropWhile p = b.dropWhile p := by
  induction a with
  | nil => simp
  | cons x xs ih =>
    simp only [List.all_cons, Bool.and_eq_true] at h
    simp [List.dropWhile_cons, h.1, ih h.2]

/-- The netloc of `https://<d><'/'-started path-and-rest>` is `d`, provided
`d` contains none of '/', '?', '#'. -/
theorem netlocL_https (dl tail : List Char)
    (hd : dl.all (fun c => !(c = '/' || c = '?' || c = '#')) = true) :
    netlocL ("https://".data ++ dl ++ '/' :: tail) = dl := by
  show List.takeWhile (fun c => !(c = '/' || c = '?' || c = '#')) (dl ++ '/' :: tail) = dl
  rw [takeWhile_append_all _ _ hd]
  show dl ++ ([] : List Char) = dl
  exact List.append_nil dl

/-- Any URL of the shape the snippet fetcher builds, whose domain part (after
lowercasing and `"www."`-deletion) is allow-listed, passes
`is_trusted_domain`. -/
theorem is_trusted_url (d p s : String)
    (hd : d.data.all (fun c => !(c = '/' || c = '?' || c = '#')) = true)
    (hp : ∃ t, p.data = '/' :: t)
    (h2 : (PRIMARY_SOURCES.contains (pyReplace "www." "" (pyLower d)) ||
           BANK_DOMAINS.contains (pyReplace "www." "" (pyLower d))) = true) :
    is_trusted_domain ("https://" ++ d ++ p ++ s) = true := by
  obtain ⟨t, ht⟩ := hp
  have hdata : ("https://" ++ d ++ p ++ s).data =
      "https://".data ++ d.data ++ '/' :: (t ++ s.data) := by
    simp [String.data_append, ht]
  unfold is_trusted_domain netloc
  rw [hdata, netlocL_https d.data _ hd]
  exact h2

/-! ### Claim C4 -/

/-- Counterexample to claim C4: for `https://hdfcwww.bank.com/x` the code's
`is_trusted_domain` answers `true` (Python's `replace` deletes the interior
`"www."`, leaving `hdfcbank.com`), while the predicate described by the claim
— hostname, lowercased, one optional leading `"www."` removed — answers
`false`. -/
theorem C4_counterexample :
    is_trusted_domain "https://hdfcwww.bank.com/x" = true ∧
      specTrustedDomain "https://hdfcwww.bank.com/x" = false := by decide

/-- Any URL of the shape `https://<domain><path><suffix>` with a '/'-started
path and an allow-listed domain passes `is_trusted_domain`. -/
theorem is_trusted_url_shape (d p s : String)
    (hd : d.data.all (fun c => !(c = '/' || c = '?' || c = '#')) = true)
    (hp : p.data.headD ' ' = '/')
    (h2 : (PRIMARY_SOURCES.contains (pyReplace "www." "" (pyLower d)) ||
           BANK_DOMAINS.contains (pyReplace "www." "" (pyLower d))) = true) :
    is_trusted_domain ("https://" ++ d ++ p ++ s) = true := by
  obtain ⟨t, ht⟩ : ∃ t, p.data = '/' :: t := by
    cases hpd : p.data with
    | nil => rw [hpd] at hp; simp at hp
    | cons c t =>
      rw [hpd] at hp
      simp only [List.headD_cons] at hp
      exact ⟨t, by rw [hp]⟩
  have hdata : ("https://" ++ d ++ p ++ s).data =
      "https://".data ++ d.data ++ '/' :: (t ++ s.data) := by
    simp [String.data_append, ht]
  unfold is_trusted_domain netloc
  rw [hdata, netlocL_https d.data _ hd]
  exact h2

/-- Claim C4 (amended): `is_trusted_domain url` is `true` exactly when the
URL's parsed netloc (which, unlike a hostname, may retain userinfo and port),
lowercased and with every occurrence of the substring `"www."` deleted, is one
of the allow-listed domains; and every URL the snippet fetcher requests
(primary and verification alike) satisfies this predicate. -/
theorem C4_trusted_gate (url q u : String) :
    (is_trusted_domain url = true ↔
      (pyReplace "www." "" (pyLower (netloc url)) ∈ PRIMARY_SOURCES ∨
       pyReplace "www." "" (pyLower (netloc url)) ∈ BANK_DOMAINS)) ∧
    (u ∈ primary_urls q ∨ u ∈ verification_urls → is_trusted_domain u = true) := by
  constructor
  · unfold is_trusted_domain
    simp [List.contains, List.elem_iff]
  · have hallP : ∀ x ∈ PRIMARY_SOURCES,
        (x.data.all fun c => !(c = '/' || c = '?' || c = '#')) = true ∧
        (PRIMARY_SOURCES.contains (pyReplace "www." "" (pyLower x)) ||
         BANK_DOMAINS.contains (pyReplace "www." "" (pyLower x))) = true := by decide
    have hallB : ∀ x ∈ BANK_DOMAINS.take 5,
        (x.data.all fun c => !(c = '/' || c = '?' || c = '#')) = true ∧
        (PRIMARY_SOURCES.contains (pyReplace "www." "" (pyLower x)) ||
         BANK_DOMAINS.contains (pyReplace "www." "" (pyLower x))) = true := by decide
    have hpathP : ∀ x ∈ primary_paths, x.data.headD ' ' = '/' := by decide
    have hpathV : ∀ x ∈ verification_paths, x.data.headD ' ' = '/' := by decide
    intro h
    rcases h with h | h
    · simp only [primary_urls, List.mem_flatMap, List.mem_map] at h
      obtain ⟨d, hdmem, p, hpmem, rfl⟩ := h
      exact is_trusted_url_shape d p (querySlug q) (hallP d hdmem).1 (hpathP p hpmem)
        (hallP d hdmem).2
    · simp only [verification_urls, List.mem_flatMap, List.mem_map] at h
      obtain ⟨d, hdmem, p, hpmem, rfl⟩ := h
      have he : ("https://" ++ d ++ p : String) = "https://" ++ d ++ p ++ "" := by
        simp
      rw [he]
      exact is_trusted_url_shape d p "" (hallB d hdmem).1 (hpathV p hpmem)
        (hallB d hdmem).2

/-- Witness for C4's amended theorem at a concrete fetched URL. -/
theorem C4_trusted_gate_witness :
    is_trusted_domain "https://cardinsider.com/credit-card/compare/x" = true :=
  (C4_trusted_gate "https://x" "x" "https://cardinsider.com/credit-card/compare/x").2
    (Or.inl (by decide))

/-! ### `fetch_url` (src/main.py lines 278-327) -/

/-- What the network and BeautifulSoup stack hand `fetch_url` for one URL:
the HTTP status, the response URL, the texts extracted from
`p`/`li`/`h2`/`h3`/`td` elements by `get_text(strip=True)`, and the page
title.  These stacks are external libraries, so they enter the model as an
oracle; `Except Unit` with `.error ()` models any raised exception (network
error, timeout, parse error). -/
structure HttpPage where
  status : Nat
  url : String
  elemTexts : List String
  title : Option String

/-- `credit_card_indicators` (src/main.py lines 222-232), in insertion
order. -/
def credit_card_indicators : List (String × Nat) :=
  [("reward rate", 3), ("cashback", 3), ("annual fee", 3), ("welcome offer", 2),
   ("lounge access", 2), ("credit limit", 2), ("joining fee", 2), ("benefits", 1),
   ("eligibility", 1)]

/-- One search-result dict as built by `fetch_url` (src/main.py
lines 319-324). -/
structure SearchResult where
  title : String
  link : String
  snippet : String
  relevance_score : Nat
deriving DecidableEq

/-- The relevance score of one text block (src/main.py lines 301-305):
the summed weights of the indicators occurring in the lowercased text. -/
def indicatorScore (text : String) : Nat :=
  (credit_card_indicators.map (fun tw =>
    if isSubL tw.1.data (toLowerL text.data) then tw.2 else 0)).sum

/-- The scored candidate texts (src/main.py lines 296-307): nonempty element
texts longer than 30 characters with positive indicator score. -/
def scoredTexts (elems : List String) : List (String × Nat) :=
  elems.filterMap (fun t =>
    if t ≠ "" ∧ 30 < t.length then
      let score := indicatorScore t
      if 0 < score then some (t, score) else none
    else none)

/-- Stable insertion for a descending-by-key sorted list: `x` passes over the
strictly greater keys and lands before the first key `≤` its own, so equal
keys keep their original order — the behaviour of Python's stable
`list.sort(key=..., reverse=True)`. -/
def insertDescBy {α : Type} (key : α → Nat) (x : α) : List α → List α
  | [] => [x]
  | y :: ys => if key x < key y then y :: insertDescBy key x ys else x :: y :: ys

/-- Stable descending sort by key (Python `list.sort(key=..., reverse=True)`). -/
def sortDescBy {α : Type} (key : α → Nat) : List α → List α
  | [] => []
  | x :: xs => insertDescBy key x (sortDescBy key xs)

/-- `re.sub(r'\s+', ' ', s)`: every maximal whitespace run becomes one
space. -/
def collapseWsGo : Bool → List Char → List Char
  | _, [] => []
  | prevWs, c :: rest =>
    if isPySpace c then
      if prevWs then collapseWsGo true rest else ' ' :: collapseWsGo true rest
    else c :: collapseWsGo false rest

/-- `re.sub(r'\s+', ' ', s)` from position zero. -/
def collapseWsL (l : List Char) : List Char := collapseWsGo false l

/-- `re.sub(r'^(.*?)\s*[|\-]\s*.*$', r'\1', s)` (src/main.py line 317): keep
the text before the first '|' or '-', trailing whitespace removed; unchanged
when no such delimiter occurs. -/
def titleHead (l : List Char) : List Char :=
  if l.any (fun c => c = '|' || c = '-') then
    ((l.takeWhile (fun c => !(c = '|' || c = '-'))).reverse.dropWhile isPySpace).reverse
  else l

/-- `" | ".join(...)`-style join. -/
def joinSepL (sep : List Char) : List (List Char) → List Char
  | [] => []
  | [x] => x
  | x :: y :: xs => x ++ sep ++ joinSepL sep (y :: xs)

/-- `fetch_url` (src/main.py lines 278-327).  On a 200 response it scores the
extracted texts, keeps the two most relevant, and builds the result dict with
a snippet truncated to 250 characters and a cleaned title; every failure path
(exception, non-200 status, no scoring text) returns `none`. -/
def fetch_url (page : Except Unit HttpPage) : Option SearchResult :=
  match page with
  | .error _ => none
  | .ok r =>
    if r.status = 200 then
      let texts := scoredTexts r.elemTexts
      if texts ≠ [] then
        let sorted := sortDescBy (fun x => x.2) texts
        let best_snippets := (sorted.take 2).map (fun x => x.1)
        some { title := ⟨titleHead (pyStripL (collapseWsL (r.title.getD "").data))⟩,
               link := r.url,
               snippet := ⟨(joinSepL " | ".data (best_snippets.map (fun b => b.data))).take 250⟩,
               relevance_score := ((sorted.take 2).map (fun x => x.2)).sum }
      else none
    else none

/-! ### `perform_web_search` (src/main.py lines 185-276) -/

/-- The `source_type` tag (src/main.py lines 254, 269). -/
inductive SourceType where
  | primary
  | verification
deriving DecidableEq

/-- A search result tagged with its source type. -/
structure TaggedResult where
  result : SearchResult
  source_type : SourceType
deriving DecidableEq

/-- The result-processing loops (src/main.py lines 252-256 and 267-271): walk
the gathered fetch results in order, appending those that are dicts with a
truthy snippet; the Bool records whether the `len >= num_results` cut
fired. -/
def collectResults (tag : SourceType) (numResults : Nat) :
    List (Option SearchResult) → List TaggedResult → List TaggedResult × Bool
  | [], acc => (acc, false)
  | none :: rest, acc => collectResults tag numResults rest acc
  | some r :: rest, acc =>
    if r.snippet ≠ "" then
      let acc' := acc ++ [⟨r, tag⟩]
      if numResults ≤ acc'.length then (acc', true)
      else collectResults tag numResults rest acc'
    else collectResults tag numResults rest acc

/-- `primary_results = await asyncio.gather(*primary_tasks, ...)`
(src/main.py lines 244-249): all primary URLs are fetched. -/
def primaryFetch (page : String → Except Unit HttpPage) (query : String) :
    List (Option SearchResult) :=
  (primary_urls query).map (fun u => fetch_url (page u))

/-- `verification_results = await asyncio.gather(...)` (src/main.py
lines 260-265). -/
def verificationFetch (page : String → Except Unit HttpPage) :
    List (Option SearchResult) :=
  verification_urls.map (fun u => fetch_url (page u))

/-- The primary-results processing pass (src/main.py lines 252-256). -/
def primaryPass (page : String → Except Unit HttpPage) (query : String)
    (numResults : Nat) : List TaggedResult × Bool :=
  collectResults .primary numResults (primaryFetch page query) []

/-- `perform_web_search` (src/main.py lines 185-276).  `page` is the HTTP
oracle for one GET.  All primary URLs are fetched (tasks are created for all
of them before `gather`); the verification URLs are fetched only when the
primary pass ended without reaching `num_results` and still below it.
Returns the collected results and the list of URLs requested.  Exceptions
inside `fetch_url` are the `none` entries (`return_exceptions=True` plus the
`isinstance(result, dict)` check); an exception of the surrounding body would
yield `[]`. -/
def perform_web_search (page : String → Except Unit HttpPage) (query : String)
    (numResults : Nat) : List TaggedResult × List String :=
  if (primaryPass page query numResults).2 then
    ((primaryPass page query numResults).1, primary_urls query)
  else if (primaryPass page query numResults).1.length < numResults then
    ((collectResults .verification numResults (verificationFetch page)
        (primaryPass page query numResults).1).1,
      primary_urls query ++ verification_urls)
  else ((primaryPass page query numResults).1, primary_urls query)

/-! ### `enhance_with_web_search` (src/main.py lines 330-387) -/

/-- `' '.join(s.lower().split())` — the snippet normalization used for
deduplication (src/main.py line 345): lowercase and collapse/trim
whitespace. -/
def normSnippet (s : String) : String :=
  ⟨joinSepL [' '] (splitWsGo [] (toLowerL s.data))⟩

/-- Phase-1 deduplication (src/main.py lines 340-348): keep a result when the
whitespace-normalized lowercase form of its stripped snippet is nonempty and
unseen; returns the kept results and the final `seen_snippets` set (modelled
as a list). -/
def dedupResults (seen : List (List Char)) :
    List TaggedResult → List TaggedResult × List (List Char)
  | [] => ([], seen)
  | r :: rest =>
    if (normSnippet (pyStrip r.result.snippet)).data ≠ [] ∧
        ¬ seen.contains (normSnippet (pyStrip r.result.snippet)).data then
      (r :: (dedupResults ((normSnippet (pyStrip r.result.snippet)).data :: seen) rest).1,
        (dedupResults ((normSnippet (pyStrip r.result.snippet)).data :: seen) rest).2)
    else dedupResults seen rest

/-- The meaningful-results filter (src/main.py lines 350-355). -/
def meaningfulFilter (l : List TaggedResult) : List TaggedResult :=
  l.filter (fun r =>
    (r.result.snippet != "") &&
    decide (50 < (pyStripL r.result.snippet.data).length) &&
    !(["cookie", "privacy", "terms of use"].any
        (fun t => isSubL t.data (toLowerL r.result.snippet.data))) &&
    !("FIRST EA".data.isPrefixOf r.result.snippet.data))

/-- The bullet-emission loops (src/main.py lines 364-378): a result is kept
when no `seen_snippets` entry occurs as a substring of its lowercased
stripped snippet, and that lowercased snippet is then added to the set.
Returns the kept results and the final set. -/
def emitKept (seen : List (List Char)) :
    List TaggedResult → List TaggedResult × List (List Char)
  | [] => ([], seen)
  | r :: rest =>
    if seen.any (fun ex => isSubL ex (toLowerL (pyStrip r.result.snippet).data)) then
      emitKept seen rest
    else
      (r :: (emitKept (toLowerL (pyStrip r.result.snippet).data :: seen) rest).1,
        (emitKept (toLowerL (pyStrip r.result.snippet).data :: seen) rest).2)

/-- `search_results` of `enhance_with_web_search` (src/main.py
lines 332-333): a search over the query plus a fixed suffix, with the default
budget of 3. -/
def searchResultsOf (page : String → Except Unit HttpPage) (query : String) :
    List TaggedResult :=
  (perform_web_search page (query ++ " credit card features rewards") 3).1

/-- The dict-sorting and deduplication pipeline of `enhance_with_web_search`
applied to the search results (src/main.py lines 336-348): kept results plus
the final `seen_snippets` set. -/
def uniqueResultsOf (page : String → Except Unit HttpPage) (query : String) :
    List TaggedResult × List (List Char) :=
  dedupResults []
    (sortDescBy (fun r => r.result.relevance_score) (searchResultsOf page query))

/-- `meaningful_results` (src/main.py lines 350-355). -/
def meaningfulOf (page : String → Except Unit HttpPage) (query : String) :
    List TaggedResult :=
  meaningfulFilter (uniqueResultsOf page query).1

/-- `primary_results` (src/main.py line 361). -/
def primaryTake (page : String → Except Unit HttpPage) (query : String) :
    List TaggedResult :=
  ((meaningfulOf page query).filter (fun r => r.source_type == .primary)).take 2

/-- `verification_results` (src/main.py line 362). -/
def verificationTake (page : String → Except Unit HttpPage) (query : String) :
    List TaggedResult :=
  ((meaningfulOf page query).filter (fun r => r.source_type == .verification)).take 2

/-- The results whose bullet lines the enhancement contains: the two emission
loops (src/main.py lines 364-378) run in sequence, sharing the
`seen_snippets` set. -/
def keptOf (page : String → Except Unit HttpPage) (query : String) :
    List TaggedResult :=
  (emitKept (uniqueResultsOf page query).2 (primaryTake page query)).1 ++
    (emitKept (emitKept (uniqueResultsOf page query).2 (primaryTake page query)).2
      (verificationTake page query)).1

/-- The bullet line for one kept result (src/main.py lines 366-369). -/
def bulletLine (r : TaggedResult) : String :=
  "• From " ++ pyReplace "www." "" (netloc r.result.link) ++ ": " ++
    pyStrip r.result.snippet ++ "\n\n"

/-- `enhance_with_web_search` (src/main.py lines 330-387), returning the
enhancement text together with the kept results whose bullet lines it
contains (in emission order). -/
def enhanceParts (page : String → Except Unit HttpPage) (query : String) :
    String × List TaggedResult :=
  if searchResultsOf page query ≠ [] then
    if meaningfulOf page query ≠ [] then
      ("\n\nLatest Credit Card Updates\n\n" ++
         ((keptOf page query).map bulletLine).foldl (· ++ ·) "" ++
         "\n*Please verify the latest terms and conditions on the official bank website.*",
       keptOf page query)
    else ("", [])
  else ("", [])

/-- `enhance_with_web_search` (src/main.py lines 330-387): the enhancement
text; `""` on every failure or no-usable-snippet path. -/
def enhance_with_web_search (page : String → Except Unit HttpPage)
    (query : String) : String :=
  (enhanceParts page query).1

/-- The response composition in `process_request` (src/main.py line 509):
the displayed text is the model reply followed by the web enhancement. -/
def combined_response (geminiText webInfo : String) : String := geminiText ++ webInfo

/-! ### Claims C3 and C7 -/

/-- `collectResults` leaves the accumulator untouched (and never cuts) when
every gathered entry is `none`. -/
theorem collectResults_none (tag : SourceType) (n : Nat)
    (l : List (Option SearchResult)) (acc : List TaggedResult)
    (h : ∀ x ∈ l, x = none) : collectResults tag n l acc = (acc, false) := by
  induction l generalizing acc with
  | nil => rfl
  | cons x rest ih =>
    have hx : x = none := h x (List.mem_cons_self x rest)
    subst hx
    exact ih acc (fun y hy => h y (List.mem_cons_of_mem _ hy))

/-- Right-cancellation of string append. -/
theorem string_append_right_cancel {a b s : String} (h : a ++ s = b ++ s) :
    a = b := by
  have hl : a.data ++ s.data = b.data ++ s.data := by
    rw [← String.data_append, ← String.data_append, h]
  have hd : a.data = b.data := List.append_cancel_right hl
  cases a
  cases b
  exact congrArg String.mk hd

/-- The ten primary prefixes (scheme, domain and path) before the query slug
is appended. -/
def primaryPrefixes : List String :=
  PRIMARY_SOURCES.flatMap (fun domain =>
    primary_paths.map (fun path => "https://" ++ domain ++ path))

theorem primary_urls_eq_map (q : String) :
    primary_urls q = primaryPrefixes.map (· ++ querySlug q) := by
  simp [primary_urls, primaryPrefixes, List.map_flatMap, List.map_map]
  rfl

theorem primary_urls_nodup (q : String) : (primary_urls q).Nodup := by
  rw [primary_urls_eq_map]
  exact List.Nodup.map (fun a b hab => string_append_right_cancel hab) (by decide)

theorem verification_urls_nodup : verification_urls.Nodup := by decide

/-- No primary URL coincides with a verification URL: they differ at the
ninth character (the domain's first letter). -/
theorem primary_verification_disjoint (q : String) :
    ∀ u ∈ primary_urls q, u ∉ verification_urls := by
  intro u hu hv
  rw [primary_urls_eq_map] at hu
  obtain ⟨pre, hpre, rfl⟩ := List.mem_map.1 hu
  have h8 : ∀ p ∈ primaryPrefixes,
      8 < p.data.length ∧ (p.data[8]? = some 'c' ∨ p.data[8]? = some 'b') := by decide
  have hv8 : ∀ v ∈ verification_urls,
      v.data[8]? ≠ some 'c' ∧ v.data[8]? ≠ some 'b' := by decide
  have hidx : (pre ++ querySlug q).data[8]? = pre.data[8]? := by
    rw [String.data_append, List.getElem?_append, if_pos (h8 pre hpre).1]
  rcases (h8 pre hpre).2 with h | h
  · exact (hv8 _ hv).1 (hidx.trans h)
  · exact (hv8 _ hv).2 (hidx.trans h)

/-- The list of URLs `perform_web_search` requests never repeats a URL:
each fetch is fired exactly once, with no retry. -/
theorem perform_web_search_trace_nodup (page : String → Except Unit HttpPage)
    (q : String) (n : Nat) : ((perform_web_search page q n).2).Nodup := by
  unfold perform_web_search
  split
  · exact primary_urls_nodup q
  · split
    · exact List.Nodup.append (primary_urls_nodup q) verification_urls_nodup
        (primary_verification_disjoint q)
    · exact primary_urls_nodup q

/-- With an always-failing page oracle, `perform_web_search` returns the
empty result list. -/
theorem perform_web_search_fail (page : String → Except Unit HttpPage)
    (q : String) (n : Nat) (hfail : ∀ x, page x = Except.error ()) :
    (perform_web_search page q n).1 = [] := by
  have hnone : ∀ x ∈ (primary_urls q).map (fun u => fetch_url (page u)), x = none := by
    intro x hx
    obtain ⟨v, _, rfl⟩ := List.mem_map.1 hx
    rw [hfail v]
    rfl
  have hnone2 : ∀ x ∈ verification_urls.map (fun u => fetch_url (page u)), x = none := by
    intro x hx
    obtain ⟨v, _, rfl⟩ := List.mem_map.1 hx
    rw [hfail v]
    rfl
  have hP : primaryPass page q n = ([], false) :=
    collectResults_none _ _ _ _ hnone
  have hV : collectResults .verification n (verificationFetch page) [] = ([], false) :=
    collectResults_none _ _ _ _ hnone2
  unfold perform_web_search
  rw [hP]
  simp [hV]
  split <;> rfl

/-- Claim C3: on failure the snippet-fetching operations return empty values
and never retry — a raised exception makes `fetch_url` return `None`; with
every GET failing, `perform_web_search` returns the empty list and
`enhance_with_web_search` the empty string; and (for any oracle whatsoever)
the list of requested URLs contains no duplicates, so no URL is ever
retried. -/
theorem C3_failure_handling (page : String → Except Unit HttpPage)
    (query u : String) (n : Nat) (hfail : ∀ x, page x = Except.error ()) :
    fetch_url (page u) = none ∧
    (perform_web_search page query n).1 = [] ∧
    enhance_with_web_search page query = "" ∧
    ∀ (pg : String → Except Unit HttpPage) (q : String) (m : Nat),
      ((perform_web_search pg q m).2).Nodup := by
  refine ⟨?_, perform_web_search_fail page query n hfail, ?_,
    fun pg q m => perform_web_search_trace_nodup pg q m⟩
  · rw [hfail u]
    rfl
  · unfold enhance_with_web_search enhanceParts searchResultsOf
    rw [perform_web_search_fail page _ 3 hfail]
    simp

/-- Witness for C3 at the concrete always-failing oracle. -/
theorem C3_failure_handling_witness :
    fetch_url ((fun _ => Except.error ()) "https://u") = none ∧
    (perform_web_search (fun _ => Except.error ()) "best cards" 3).1 = [] ∧
    enhance_with_web_search (fun _ => Except.error ()) "best cards" = "" ∧
    ∀ (pg : String → Except Unit HttpPage) (q : String) (m : Nat),
      ((perform_web_search pg q m).2).Nodup :=
  C3_failure_handling (fun _ => Except.error ()) "best cards" "https://u" 3
    (fun _ => rfl)

/-- The number of usable fetch results (dicts with a truthy snippet) in a
gathered list. -/
def usableCountL (l : List (Option SearchResult)) : Nat :=
  l.countP (fun o => match o with
    | some r => r.snippet != ""
    | none => false)

/-- Starting below the budget, `collectResults` never returns more than
`numResults` results. -/
theorem collectResults_length (tag : SourceType) (n : Nat)
    (l : List (Option SearchResult)) (acc : List TaggedResult)
    (h : acc.length < n) : (collectResults tag n l acc).1.length ≤ n := by
  induction l generalizing acc with
  | nil => exact Nat.le_of_lt h
  | cons x rest ih =>
    cases x with
    | none => exact ih acc h
    | some r =>
      by_cases hs : r.snippet ≠ ""
      · simp only [collectResults, if_pos hs]
        by_cases hn : n ≤ (acc ++ [(⟨r, tag⟩ : TaggedResult)]).length
        · rw [if_pos hn]
          simp only [List.length_append, List.length_cons, List.length_nil]
          omega
        · rw [if_neg hn]
          refine ih _ ?_
          simp only [List.length_append, List.length_cons, List.length_nil] at hn ⊢
          omega
      · simp only [collectResults, if_neg hs]
        exact ih acc h

/-- Every collected result was already in the accumulator or carries the tag
of the pass that collected it. -/
theorem collectResults_tags (tag : SourceType) (n : Nat)
    (l : List (Option SearchResult)) (acc : List TaggedResult) :
    ∀ r ∈ (collectResults tag n l acc).1, r ∈ acc ∨ r.source_type = tag := by
  induction l generalizing acc with
  | nil => intro r hr; exact Or.inl hr
  | cons x rest ih =>
    cases x with
    | none => exact ih acc
    | some r0 =>
      by_cases hs : r0.snippet ≠ ""
      · simp only [collectResults, if_pos hs]
        by_cases hn : n ≤ (acc ++ [(⟨r0, tag⟩ : TaggedResult)]).length
        · rw [if_pos hn]
          intro r hr
          rcases List.mem_append.1 hr with h | h
          · exact Or.inl h
          · right
            rcases List.mem_singleton.1 h with rfl
            rfl
        · rw [if_neg hn]
          intro r hr
          rcases ih _ r hr with h | h
          · rcases List.mem_append.1 h with h' | h'
            · exact Or.inl h'
            · right
              rcases List.mem_singleton.1 h' with rfl
              rfl
          · exact Or.inr h
      · simp only [collectResults, if_neg hs]
        exact ih acc

/-- When the cut never fires, the pass collects exactly the usable results. -/
theorem collectResults_no_cut (tag : SourceType) (n : Nat)
    (l : List (Option SearchResult)) (acc : List TaggedResult)
    (h : (collectResults tag n l acc).2 = false) :
    (collectResults tag n l acc).1.length = acc.length + usableCountL l := by
  induction l generalizing acc with
  | nil => simp [collectResults, usableCountL]
  | cons x rest ih =>
    cases x with
    | none =>
      have := ih acc h
      simpa [usableCountL, List.countP_cons] using this
    | some r =>
      by_cases hs : r.snippet ≠ ""
      · simp only [collectResults, if_pos hs] at h ⊢
        by_cases hn : n ≤ (acc ++ [(⟨r, tag⟩ : TaggedResult)]).length
        · rw [if_pos hn] at h
          exact absurd h (by simp)
        · rw [if_neg hn] at h ⊢
          have := ih _ h
          simp only [List.length_append, List.length_cons, List.length_nil] at this
          simp only [usableCountL, List.countP_cons] at this ⊢
          have hsb : (r.snippet != "") = true := by
            simpa using hs
          rw [this]
          simp [hsb]
          omega
      · simp only [collectResults, if_neg hs] at h ⊢
        have := ih acc h
        simp only [usableCountL, List.countP_cons] at this ⊢
        have hsb : (r.snippet != "") = false := by
          simpa using hs
        rw [this]
        simp [hsb]

/-- Claim C7: `perform_web_search` returns at most `num_results` results (for
any positive budget; the code always calls it with the default 3), and a
verification-source result can appear only when the primary sources yielded
fewer than `num_results` usable snippets. -/
theorem C7_result_budget (page : String → Except Unit HttpPage) (query : String)
    (n : Nat) (hn : 1 ≤ n) :
    (perform_web_search page query n).1.length ≤ n ∧
    ((∃ r ∈ (perform_web_search page query n).1,
        r.source_type = SourceType.verification) →
      usableCountL ((primary_urls query).map (fun u => fetch_url (page u))) < n) := by
  unfold perform_web_search
  split
  · next hcut =>
    constructor
    · exact collectResults_length _ _ _ _ (by simpa using hn)
    · rintro ⟨r, hr, hver⟩
      rcases collectResults_tags _ _ _ _ r hr with h | h
      · exact absurd h (List.not_mem_nil r)
      · rw [hver] at h
        exact absurd h (by decide)
  · split
    · next hcut hlt =>
      constructor
      · exact collectResults_length _ _ _ _ hlt
      · intro _
        have := collectResults_no_cut _ _ _ _ (by simpa using hcut)
        simp only [List.length_nil, Nat.zero_add] at this
        show usableCountL (primaryFetch page query) < n
        rw [← this]
        exact hlt
    · next hcut hge =>
      constructor
      · exact collectResults_length _ _ _ _ (by simpa using hn)
      · rintro ⟨r, hr, hver⟩
        rcases collectResults_tags _ _ _ _ r hr with h | h
        · exact absurd h (List.not_mem_nil r)
        · rw [hver] at h
          exact absurd h (by decide)

/-- Witness for C7 at the default budget 3 and a concrete oracle. -/
theorem C7_result_budget_witness :
    (perform_web_search (fun _ => Except.error ()) "best cards" 3).1.length ≤ 3 ∧
    ((∃ r ∈ (perform_web_search (fun _ => Except.error ()) "best cards" 3).1,
        r.source_type = SourceType.verification) →
      usableCountL (((primary_urls "best cards").map
        (fun u => fetch_url ((fun _ => Except.error ()) u)))) < 3) :=
  C7_result_budget (fun _ => Except.error ()) "best cards" 3 (by decide)

/-! ### Claims C5 and C6 -/

/-- The deduplication relation of claim C5: distinct snippet texts after
lowercasing and whitespace normalization. -/
def distinctNorm (a b : TaggedResult) : Prop :=
  normSnippet (pyStrip a.result.snippet) ≠ normSnippet (pyStrip b.result.snippet)

theorem distinctNorm_symm : Symmetric distinctNorm := by
  intro a b h heq
  exact h heq.symm

/-- Phase-1 deduplication yields pairwise-distinct normalized snippets, none
of which was already in the seen set. -/
theorem dedupResults_pairwise (l : List TaggedResult) :
    ∀ seen, (dedupResults seen l).1.Pairwise distinctNorm ∧
      ∀ r ∈ (dedupResults seen l).1,
        (normSnippet (pyStrip r.result.snippet)).data ∉ seen := by
  induction l with
  | nil =>
    intro seen
    refine ⟨List.Pairwise.nil, ?_⟩
    intro r hr
    simp [dedupResults] at hr
  | cons r rest ih =>
    intro seen
    by_cases hc : (normSnippet (pyStrip r.result.snippet)).data ≠ [] ∧
        ¬ seen.contains (normSnippet (pyStrip r.result.snippet)).data
    · simp only [dedupResults, if_pos hc]
      constructor
      · refine List.Pairwise.cons ?_ (ih _).1
        intro b hb heq
        have hnot := (ih ((normSnippet (pyStrip r.result.snippet)).data :: seen)).2 b hb
        apply hnot
        have hdb : (normSnippet (pyStrip b.result.snippet)).data =
            (normSnippet (pyStrip r.result.snippet)).data :=
          congrArg String.data heq.symm
        rw [hdb]
        exact List.mem_cons_self _ _
      · intro x hx
        rcases List.mem_cons.1 hx with rfl | hx'
        · intro hmem
          exact hc.2 (List.elem_iff.2 hmem)
        · intro hmem
          exact (ih _).2 x hx' (List.mem_cons_of_mem _ hmem)
    · simp only [dedupResults, if_neg hc]
      exact ih seen

/-- The emission loop keeps a subsequence of its input. -/
theorem emitKept_sublist (l : List TaggedResult) :
    ∀ seen, (emitKept seen l).1.Sublist l := by
  induction l with
  | nil =>
    intro seen
    simp [emitKept]
  | cons r rest ih =>
    intro seen
    by_cases hc :
        seen.any (fun ex => isSubL ex (toLowerL (pyStrip r.result.snippet).data))
    · simp only [emitKept, if_pos hc]
      exact (ih seen).cons r
    · simp only [emitKept, if_neg hc]
      exact (ih _).cons₂ r

/-- The concatenation of the two takes has pairwise-distinct normalized
snippets. -/
theorem takes_pairwise (page : String → Except Unit HttpPage) (query : String) :
    (primaryTake page query ++ verificationTake page query).Pairwise distinctNorm := by
  have huniq : (uniqueResultsOf page query).1.Pairwise distinctNorm :=
    (dedupResults_pairwise _ []).1
  have hmean : (meaningfulOf page query).Pairwise distinctNorm := by
    unfold meaningfulOf meaningfulFilter
    exact List.Pairwise.sublist (List.filter_sublist _) huniq
  have hsubP : (primaryTake page query).Sublist (meaningfulOf page query) :=
    (List.take_sublist _ _).trans (List.filter_sublist _)
  have hsubV : (verificationTake page query).Sublist (meaningfulOf page query) :=
    (List.take_sublist _ _).trans (List.filter_sublist _)
  rw [List.pairwise_append]
  refine ⟨List.Pairwise.sublist hsubP hmean, List.Pairwise.sublist hsubV hmean, ?_⟩
  intro a ha b hb
  have haM : a ∈ meaningfulOf page query := hsubP.subset ha
  have hbM : b ∈ meaningfulOf page query := hsubV.subset hb
  have haP : a.source_type = SourceType.primary := by
    have := List.mem_of_mem_take ha
    have := (List.mem_filter.1 this).2
    simpa using this
  have hbV : b.source_type = SourceType.verification := by
    have := List.mem_of_mem_take hb
    have := (List.mem_filter.1 this).2
    simpa using this
  have hne : a ≠ b := by
    intro h
    rw [h] at haP
    rw [haP] at hbV
    exact absurd hbV (by decide)
  exact hmean.forall distinctNorm_symm haM hbM hne

/-- Claim C5: the enhancement's bullet block is deduplicated — among the
results whose bullet lines it contains, no two share the same snippet text
after lowercasing and whitespace normalization. -/
theorem C5_snippets_deduplicated (page : String → Except Unit HttpPage)
    (query : String) :
    (enhanceParts page query).2.Pairwise distinctNorm ∧
    enhance_with_web_search page query = (enhanceParts page query).1 := by
  refine ⟨?_, rfl⟩
  unfold enhanceParts
  split
  · split
    · show (keptOf page query).Pairwise distinctNorm
      have hsub : (keptOf page query).Sublist
          (primaryTake page query ++ verificationTake page query) :=
        List.Sublist.append (emitKept_sublist _ _) (emitKept_sublist _ _)
      exact List.Pairwise.sublist hsub (takes_pairwise page query)
    · exact List.Pairwise.nil
  · exact List.Pairwise.nil

/-- Claim C6: the text composed for display is exactly the model reply
followed by the snippet enhancement; the reply is an unchanged prefix of it;
the handler's displayed payload is that very composition (unless the local
rate limit rejects); and the enhancement is the empty string when no usable
snippets were found. -/
theorem C6_displayed_response (page : String → Except Unit HttpPage)
    (query reply : String) (st : SessionState) (now : Int) :
    combined_response reply (enhance_with_web_search page query) =
      reply ++ enhance_with_web_search page query ∧
    (∃ t, combined_response reply (enhance_with_web_search page query) = reply ++ t) ∧
    ((handleUserInput st now query
        (some (enhance_with_web_search page query)) (some reply)).1 =
          RequestOutcome.replied (reply ++ enhance_with_web_search page query) ∨
      ∃ w, (handleUserInput st now query
        (some (enhance_with_web_search page query)) (some reply)).1 =
          RequestOutcome.rejected w) ∧
    (meaningfulOf page query = [] → enhance_with_web_search page query = "") := by
  refine ⟨rfl, ⟨_, rfl⟩, ?_, ?_⟩
  · by_cases h1 : now - st.last_request_time > 60 <;>
      by_cases h2 : st.requests_in_minute ≥ 10 <;>
      simp [handleUserInput, h1, h2]
  · intro hm
    unfold enhance_with_web_search enhanceParts
    split
    · rw [hm]
      simp
    · rfl

/-- Witness for C6 at a concrete failing oracle (no usable snippets, so the
displayed text is the bare reply). -/
theorem C6_displayed_response_witness :
    enhance_with_web_search (fun _ => Except.error ()) "best cards" = "" ∧
    combined_response "hello" (enhance_with_web_search (fun _ => Except.error ()) "best cards") =
      "hello" ++ enhance_with_web_search (fun _ => Except.error ()) "best cards" :=
  ⟨(C6_displayed_response (fun _ => Except.error ()) "best cards" "hello"
      initSessionState 0).2.2.2 (by rfl),
    (C6_displayed_response (fun _ => Except.error ()) "best cards" "hello"
      initSessionState 0).1⟩

/-! ### `format_table` (src/response_formatter.py lines 119-156) -/

/-- Where a `<tr>` row sits in the parsed table document. -/
inductive RowRegion where
  | thead
  | tbody
  | loose
deriving DecidableEq

/-- One `<tr>` row: its region, its cell texts, and a representative of its
BeautifulSoup structural-equality class.  A cell text stands for
`convert_html_to_markdown(str(td)).strip()` (lines 128-129, 138-139); the
BeautifulSoup traversal and the per-cell conversion are abstracted into the
parsed input, since claim C9 concerns the control flow and padding that
follow.  `Tag.__eq__` compares markup structurally (same name, same
attributes, same contents, recursively), so two distinct `<tr>` elements can
compare equal; the parser assigns every row a canonical representative
string of that equivalence class in `eqv`, and rows compare equal exactly
when their `eqv` fields coincide. -/
structure TRow where
  region : RowRegion
  cells : List String
  eqv : String
deriving DecidableEq

/-- A parsed `<table>` document: all `<tr>` rows in document order, plus
whether a `<thead>` / `<tbody>` tag exists (either tag can exist yet hold no
rows). -/
structure TableDoc where
  rows : List TRow
  hasThead : Bool
  hasTbody : Bool
deriving DecidableEq

/-- The displayed table (`pd.DataFrame(data, columns=headers)`). -/
structure DataFrame where
  columns : List String
  rows : List (List String)
deriving DecidableEq

/-- The document index of `header_row` (src/response_formatter.py line 126):
the first row of `<thead>` when that tag exists, else the first row of the
whole document.  `none` models `header_row = None`, on which line 127 raises
`AttributeError` and the `except` returns `None`. -/
def headerIdx (doc : TableDoc) : Option Nat :=
  if doc.hasThead then doc.rows.findIdx? (fun r => r.region == RowRegion.thead)
  else if doc.rows.isEmpty then none else some 0

/-- The `header_row` tag itself (src/response_formatter.py line 126). -/
def headerRow (doc : TableDoc) : Option TRow :=
  match headerIdx doc with
  | none => none
  | some i => some ((doc.rows.get? i).getD ⟨RowRegion.loose, [], ""⟩)

/-- The extracted header cells (src/response_formatter.py lines 125-129). -/
def headersOf (doc : TableDoc) : Option (List String) :=
  match headerRow doc with
  | none => none
  | some r => some r.cells

/-- The structural-equality class of the header row. -/
def headerEqv (doc : TableDoc) : Option String :=
  match headerRow doc with
  | none => none
  | some r => some r.eqv

/-- The extracted data rows (src/response_formatter.py lines 132-141): the
rows of `<tbody>` when that tag exists, else every row of the document;
`tr != header_row` is BeautifulSoup structural inequality, so every row
whose markup equals the header row's is skipped, wherever it sits; rows
with no cells are dropped. -/
def dataRowsOf (doc : TableDoc) : List (List String) :=
  ((doc.rows.filter (fun r =>
      (!doc.hasTbody || r.region == RowRegion.tbody) &&
      !(some r.eqv == headerEqv doc))).map (fun r => r.cells)).filter
    (fun r => !r.isEmpty)

/-- `format_table` (src/response_formatter.py lines 119-156): `None` when the
header row is missing (the caught `AttributeError`), when no header cell or
no data row was found; otherwise the DataFrame over headers and rows padded
with empty strings to the common width
`max(len(headers), max(len(row) for row in data))`. -/
def format_table (doc : TableDoc) : Option DataFrame :=
  match headersOf doc with
  | none => none
  | some headers =>
    if headers ≠ [] ∧ dataRowsOf doc ≠ [] then
      some { columns := headers ++ List.replicate
               ((max headers.length (((dataRowsOf doc).map List.length).foldl max 0)) -
                 headers.length) "",
             rows := (dataRowsOf doc).map (fun row => row ++ List.replicate
               ((max headers.length (((dataRowsOf doc).map List.length).foldl max 0)) -
                 row.length) "") }
    else none

/-! ### Claim C9 -/

theorem le_foldl_max (l : List Nat) :
    ∀ a : Nat, (∀ x ∈ l, x ≤ l.foldl max a) ∧ a ≤ l.foldl max a := by
  induction l with
  | nil =>
    intro a
    refine ⟨?_, Nat.le_refl a⟩
    intro x hx
    cases hx
  | cons y ys ih =>
    intro a
    constructor
    · intro x hx
      rcases List.mem_cons.1 hx with rfl | hx'
      · exact le_trans (Nat.le_max_right a x) (ih (max a x)).2
      · exact (ih (max a y)).1 x hx'
    · exact le_trans (Nat.le_max_left a y) (ih (max a y)).2

theorem pad_length (l : List String) (m : Nat) (h : l.length ≤ m) :
    (l ++ List.replicate (m - l.length) "").length = m := by
  simp only [List.length_append, List.length_replicate]
  omega

/-- Claim C9: `format_table` is total (never raises); it returns `None`
exactly on the failure paths — header extraction failed, no header cells, or
no data rows — and otherwise a DataFrame whose header list and data rows have
all been padded with empty strings to the same width, the maximum of the
header count and the longest row. -/
theorem C9_format_table (doc : TableDoc) :
    match format_table doc with
    | none => headerIdx doc = none ∨ headersOf doc = some [] ∨ dataRowsOf doc = []
    | some df =>
        ∃ headers, headersOf doc = some headers ∧
          df.columns.length =
            max headers.length (((dataRowsOf doc).map List.length).foldl max 0) ∧
          (∀ row ∈ df.rows, row.length = df.columns.length) ∧
          df.columns =
            headers ++ List.replicate (df.columns.length - headers.length) "" ∧
          df.rows = (dataRowsOf doc).map
            (fun row => row ++ List.replicate (df.columns.length - row.length) "") := by
  cases hh : headersOf doc with
  | none =>
    have hidx : headerIdx doc = none := by
      unfold headersOf headerRow at hh
      cases hi : headerIdx doc with
      | none => rfl
      | some i => rw [hi] at hh; cases hh
    simp only [format_table, hh]
    exact Or.inl hidx
  | some headers =>
    by_cases hc : headers ≠ [] ∧ dataRowsOf doc ≠ []
    · simp only [format_table, hh, if_pos hc]
      have hle : headers.length ≤
          max headers.length (((dataRowsOf doc).map List.length).foldl max 0) :=
        Nat.le_max_left _ _
      have hcolslen := pad_length headers _ hle
      refine ⟨headers, rfl, hcolslen, ?_, ?_, ?_⟩
      · intro row hrow
        rcases List.mem_map.1 hrow with ⟨row0, hrow0, rfl⟩
        have hrle : row0.length ≤
            max headers.length (((dataRowsOf doc).map List.length).foldl max 0) := by
          refine le_trans ?_ (Nat.le_max_right headers.length _)
          exact (le_foldl_max _ 0).1 row0.length (List.mem_map.2 ⟨row0, hrow0, rfl⟩)
        rw [pad_length row0 _ hrle, hcolslen]
      · rw [hcolslen]
      · rw [hcolslen]
    · simp only [format_table, hh, if_neg hc]
      rcases Decidable.not_and_iff_or_not.1 hc with h | h
      · right
        left
        simp only [ne_eq, Decidable.not_not] at h
        rw [h]
      · right
        right
        simpa using h

/-- A concrete table: a two-cell header and a three-cell body row with
distinct markup. -/
def demoTableDoc : TableDoc :=
  ⟨[⟨RowRegion.thead, ["a", "b"], "<tr><th>a</th><th>b</th></tr>"⟩,
    ⟨RowRegion.tbody, ["1", "2", "3"], "<tr><td>1</td><td>2</td><td>3</td></tr>"⟩],
   true, true⟩

/-- Witness for C9 at `demoTableDoc`: the header is padded to the longest
row's width and every data row has that width. -/
theorem C9_format_table_witness :
    ∀ row ∈ [["1", "2", "3"]], row.length = (["a", "b", ""] : List String).length := by
  have h := C9_format_table demoTableDoc
  rw [show format_table demoTableDoc =
      some ⟨["a", "b", ""], [["1", "2", "3"]]⟩ from by decide] at h
  obtain ⟨headers, hh, hlen, hall, hcols, hrows⟩ := h
  intro row hr
  exact hall row hr

/-- A table whose single body row repeats the header row's markup
(`<table><tr><td>foo</td></tr><tr><td>foo</td></tr></table>`): the second
`<tr>` is structurally equal to the header row, `tr != header_row` is
false, no data row survives, and `format_table` returns `None`. -/
def dupRowDoc : TableDoc :=
  ⟨[⟨RowRegion.loose, ["foo"], "<tr><td>foo</td></tr>"⟩,
    ⟨RowRegion.loose, ["foo"], "<tr><td>foo</td></tr>"⟩], false, false⟩

theorem format_table_duplicate_row : format_table dupRowDoc = none := by decide

/-! ### Edit alignments

The steps of `convert_html_to_markdown` that run after the tag-removal
`re.sub(r'<[^>]+>', '', text)` (src/response_formatter.py lines 87-115) only
delete whitespace, insert whitespace, or copy characters.  Each step is
defined as a producer of an edit script; the invariant "no `<[^>]+>`
substring" is carried through all of them by one simulation lemma. -/

/-- One alignment step relating an input and an output string. -/
inductive Edit where
  | copy (c : Char)
  | del (c : Char)
  | ins (c : Char)
deriving DecidableEq

/-- The input string an edit script describes. -/
def editsInput : List Edit → List Char
  | [] => []
  | Edit.copy c :: r => c :: editsInput r
  | Edit.del c :: r => c :: editsInput r
  | Edit.ins _ :: r => editsInput r

/-- The output string an edit script describes. -/
def editsOutput : List Edit → List Char
  | [] => []
  | Edit.copy c :: r => c :: editsOutput r
  | Edit.del _ :: r => editsOutput r
  | Edit.ins c :: r => c :: editsOutput r

/-- Every deleted and every inserted character is whitespace. -/
def wsOk : List Edit → Bool
  | [] => true
  | Edit.copy _ :: r => wsOk r
  | Edit.del c :: r => isPySpace c && wsOk r
  | Edit.ins c :: r => isPySpace c && wsOk r

/-- No insertion directly after a copied '<' (`safe` records whether an
insertion is allowed right now; deletions and insertions re-arm it). -/
def insOkF (safe : Bool) : List Edit → Bool
  | [] => true
  | Edit.copy c :: r => insOkF (!(c == '<')) r
  | Edit.del _ :: r => insOkF true r
  | Edit.ins _ :: r => safe && insOkF true r

/-! ### The tag automaton: scanning for a `<[^>]+>` substring -/

/-- Scanner state: `clear` — no pending '<'; `pending0` — a '<' was just
read; `pending1` — a pending '<' followed by one or more non-'>' characters;
`bad` — a full `<[^>]+>` tag has been seen. -/
inductive TagState where
  | clear
  | pending0
  | pending1
  | bad
deriving DecidableEq

/-- Rank for the simulation order `clear < pending0 < pending1 < bad`. -/
def tagRank : TagState → Nat
  | TagState.clear => 0
  | TagState.pending0 => 1
  | TagState.pending1 => 2
  | TagState.bad => 3

def tagStep (s : TagState) (c : Char) : TagState :=
  match s with
  | TagState.bad => TagState.bad
  | TagState.clear => if c = '<' then TagState.pending0 else TagState.clear
  | TagState.pending0 => if c = '>' then TagState.clear else TagState.pending1
  | TagState.pending1 => if c = '>' then TagState.bad else TagState.pending1

def runTag (s : TagState) (l : List Char) : TagState := l.foldl tagStep s

/-- What any character that is neither '<' nor '>' does to the state. -/
def wsBump : TagState → TagState
  | TagState.clear => TagState.clear
  | TagState.pending0 => TagState.pending1
  | TagState.pending1 => TagState.pending1
  | TagState.bad => TagState.bad

theorem tagStep_other {c : Char} (h1 : c ≠ '<') (h2 : c ≠ '>') (s : TagState) :
    tagStep s c = wsBump s := by
  cases s <;> simp [tagStep, wsBump, h1, h2]

theorem ws_ne_angle {c : Char} (hc : isPySpace c = true) : c ≠ '<' ∧ c ≠ '>' := by
  simp only [isPySpace, Bool.or_eq_true, decide_eq_true_eq] at hc
  rcases hc with ((((h | h) | h) | h) | h) | h <;> subst h <;>
    exact ⟨by decide, by decide⟩

theorem tagStep_mono (s t : TagState) (h : tagRank s ≤ tagRank t) (c : Char) :
    tagRank (tagStep s c) ≤ tagRank (tagStep t c) := by
  by_cases h1 : c = '<'
  · subst h1
    cases s <;> cases t <;> revert h <;> decide
  · by_cases h2 : c = '>'
    · subst h2
      cases s <;> cases t <;> revert h <;> decide
    · rw [tagStep_other h1 h2, tagStep_other h1 h2]
      cases s <;> cases t <;> revert h <;> decide

theorem wsBump_mono (s t : TagState) (h : tagRank s ≤ tagRank t) :
    tagRank (wsBump s) ≤ tagRank (wsBump t) := by
  cases s <;> cases t <;> revert h <;> decide

theorem wsBump_infl (s : TagState) : tagRank s ≤ tagRank (wsBump s) := by
  cases s <;> decide

theorem wsBump_idem (s : TagState) : wsBump (wsBump s) = wsBump s := by
  cases s <;> rfl

theorem runTag_mono (l : List Char) :
    ∀ s t, tagRank s ≤ tagRank t → tagRank (runTag s l) ≤ tagRank (runTag t l) := by
  induction l with
  | nil => intro s t h; exact h
  | cons c rest ih =>
    intro s t h
    exact ih (tagStep s c) (tagStep t c) (tagStep_mono s t h c)

/-- The key consequence of a copy of a character other than '<': afterward a
whitespace bump of the output state still does not outrank the input
state. -/
theorem copy_safe_step (si so : TagState) (c : Char) (hc : c ≠ '<')
    (h : tagRank so ≤ tagRank si) :
    tagRank (wsBump (tagStep so c)) ≤ tagRank (tagStep si c) := by
  by_cases h2 : c = '>'
  · subst h2
    cases si <;> cases so <;> revert h <;> simp [tagStep, wsBump, tagRank]
  · rw [tagStep_other hc h2, tagStep_other hc h2, wsBump_idem]
    exact wsBump_mono _ _ h

/-- Simulation: over a whitespace-only edit script with no insertion right
after a copied '<', the output's scanner state never outranks the input's. -/
theorem edits_sim : ∀ (es : List Edit) (si so : TagState) (safe : Bool),
    wsOk es = true → insOkF safe es = true →
    tagRank so ≤ tagRank si →
    (safe = true → tagRank (wsBump so) ≤ tagRank si) →
    tagRank (runTag so (editsOutput es)) ≤ tagRank (runTag si (editsInput es)) := by
  intro es
  induction es with
  | nil => intro si so safe _ _ h _; exact h
  | cons e rest ih =>
    intro si so safe hws hins h hsafe
    cases e with
    | copy c =>
      simp only [editsInput, editsOutput, runTag, List.foldl_cons]
      simp only [wsOk] at hws
      simp only [insOkF] at hins
      exact ih (tagStep si c) (tagStep so c) (!(c == '<')) hws hins
        (tagStep_mono _ _ h c)
        (fun hs => copy_safe_step si so c
          (by simpa using hs) h)
    | del c =>
      simp only [editsInput, editsOutput, runTag, List.foldl_cons]
      simp only [wsOk, Bool.and_eq_true] at hws
      simp only [insOkF] at hins
      have hcw := ws_ne_angle hws.1
      have hstep : tagStep si c = wsBump si := tagStep_other hcw.1 hcw.2 si
      refine ih (tagStep si c) so true hws.2 hins ?_ ?_
      · rw [hstep]
        exact le_trans h (wsBump_infl si)
      · intro _
        rw [hstep]
        exact wsBump_mono _ _ h
    | ins c =>
      simp only [editsInput, editsOutput, runTag, List.foldl_cons]
      simp only [wsOk, Bool.and_eq_true] at hws
      simp only [insOkF, Bool.and_eq_true] at hins
      have hcw := ws_ne_angle hws.1
      have hstep : tagStep so c = wsBump so := tagStep_other hcw.1 hcw.2 so
      refine ih si (tagStep so c) true hws.2 hins.2 ?_ ?_
      · rw [hstep]
        exact hsafe hins.1
      · intro _
        rw [hstep, wsBump_idem]
        exact hsafe hins.1

/-- The no-tag invariant survives any whitespace-only, insertion-safe edit
script. -/
theorem edits_preserve_notBad (es : List Edit)
    (hws : wsOk es = true) (hins : insOkF true es = true)
    (h : runTag TagState.clear (editsInput es) ≠ TagState.bad) :
    runTag TagState.clear (editsOutput es) ≠ TagState.bad := by
  intro hbad
  apply h
  have := edits_sim es TagState.clear TagState.clear true hws hins
    (Nat.le_refl _) (fun _ => by decide)
  rw [hbad] at this
  cases hfin : runTag TagState.clear (editsInput es) <;>
    rw [hfin] at this <;> revert this <;> decide

/-! ### `re.sub(r'<[^>]+>', '', text)` (src/response_formatter.py line 84) -/

/-- The tag-removal scan.  At a '<' the regex matches up to the first later
'>' provided at least one character lies between (`[^>]+`); on a match the
scan resumes after that '>'.  A '<' immediately followed by '>' survives
(both characters are emitted, the scan resumes after them — exactly what the
character-by-character `re.sub` scan does), and once no '>' remains nothing
further can match, so the remainder is emitted unchanged.  The `Nat` is
structural fuel, one unit per scan step; `removeTags` supplies enough. -/
def removeTagsF : Nat → List Char → List Char
  | 0, l => l
  | _ + 1, [] => []
  | fuel + 1, c :: rest =>
    if c = '<' then
      match rest.dropWhile (· ≠ '>'), rest.takeWhile (· ≠ '>') with
      | '>' :: tail, _ :: _ => removeTagsF fuel tail
      | '>' :: tail, [] => c :: '>' :: removeTagsF fuel tail
      | _, _ => c :: rest
    else c :: removeTagsF fuel rest

/-- `re.sub(r'<[^>]+>', '', text)`. -/
def removeTags (l : List Char) : List Char := removeTagsF l.length l

theorem dropWhile_head_false {p : Char → Bool} :
    ∀ (l : List Char) (x : Char) (xs : List Char), l.dropWhile p = x :: xs → p x = false := by
  intro l
  induction l with
  | nil => intro x xs h; cases h
  | cons a l' ih =>
    intro x xs h
    by_cases ha : p a
    · rw [List.dropWhile_cons, if_pos ha] at h
      exact ih x xs h
    · rw [List.dropWhile_cons, if_neg ha] at h
      cases h
      simpa using ha

theorem tagStep_ne_bad {s : TagState} (hs : s ≠ TagState.bad) {c : Char}
    (hc : c ≠ '>') : tagStep s c ≠ TagState.bad := by
  cases s with
  | bad => exact absurd rfl hs
  | clear => by_cases h : c = '<' <;> simp [tagStep, h]
  | pending0 => simp [tagStep, hc]
  | pending1 => simp [tagStep, hc]

theorem runTag_no_gt : ∀ (l : List Char), '>' ∉ l →
    ∀ s, s ≠ TagState.bad → runTag s l ≠ TagState.bad := by
  intro l
  induction l with
  | nil => intro _ s h; exact h
  | cons c rest ih =>
    intro hgt s hs
    have hc : c ≠ '>' := fun h => hgt (h ▸ List.mem_cons_self c rest)
    exact ih (fun h => hgt (List.mem_cons_of_mem _ h)) (tagStep s c)
      (tagStep_ne_bad hs hc)

/-- The tag-removal output never contains a `<[^>]+>` substring. -/
theorem removeTagsF_notBad : ∀ (fuel : Nat) (l : List Char), l.length ≤ fuel →
    runTag TagState.clear (removeTagsF fuel l) ≠ TagState.bad := by
  intro fuel
  induction fuel with
  | zero =>
    intro l hl
    have hnil : l = [] := List.length_eq_zero.mp (Nat.le_zero.mp hl)
    subst hnil
    decide
  | succ fuel ih =>
    intro l hl
    cases l with
    | nil =>
      show runTag TagState.clear [] ≠ TagState.bad
      decide
    | cons c rest =>
      simp only [List.length_cons, Nat.succ_le_succ_iff] at hl
      by_cases hc : c = '<'
      · subst hc
        cases hd : rest.dropWhile (· ≠ '>') with
        | nil =>
          have hngt : '>' ∉ rest := by
            intro hmem
            have hall := List.dropWhile_eq_nil_iff.mp hd
            have := hall '>' hmem
            simp at this
          simp only [removeTagsF, hd]
          show runTag TagState.clear ('<' :: rest) ≠ TagState.bad
          have : runTag TagState.clear ('<' :: rest) =
              runTag TagState.pending0 rest := rfl
          rw [this]
          exact runTag_no_gt rest hngt TagState.pending0 (by decide)
        | cons g tail =>
          have hg : g = '>' := by
            have := dropWhile_head_false rest g tail hd
            simpa using this
          subst hg
          have hlen : tail.length ≤ fuel := by
            have hsplit := List.takeWhile_append_dropWhile (p := (· ≠ '>')) (l := rest)
            have : rest.length = (rest.takeWhile (· ≠ '>')).length + tail.length + 1 := by
              conv_lhs => rw [← hsplit]
              rw [hd]
              simp [List.length_append]
              omega
            omega
          cases ht : rest.takeWhile (· ≠ '>') with
          | nil =>
            simp only [removeTagsF, hd, ht]
            show runTag TagState.clear ('<' :: '>' :: removeTagsF fuel tail) ≠
              TagState.bad
            have : runTag TagState.clear ('<' :: '>' :: removeTagsF fuel tail) =
                runTag TagState.clear (removeTagsF fuel tail) := rfl
            rw [this]
            exact ih tail hlen
          | cons a as =>
            simp only [removeTagsF, hd, ht]
            exact ih tail hlen
      · simp only [removeTagsF, if_neg hc]
        show runTag TagState.clear (c :: removeTagsF fuel rest) ≠ TagState.bad
        have hstep : tagStep TagState.clear c = TagState.clear := by
          simp [tagStep, hc]
        have : runTag TagState.clear (c :: removeTagsF fuel rest) =
            runTag (tagStep TagState.clear c) (removeTagsF fuel rest) := rfl
        rw [this, hstep]
        exact ih rest hl

theorem removeTags_notBad (l : List Char) :
    runTag TagState.clear (removeTags l) ≠ TagState.bad :=
  removeTagsF_notBad l.length l (Nat.le_refl _)

/-! ### A `<[^>]+>` decomposition drives the scanner to `bad` -/

theorem runTag_bad_absorb (l : List Char) : runTag TagState.bad l = TagState.bad := by
  induction l with
  | nil => rfl
  | cons c rest ih =>
    have : runTag TagState.bad (c :: rest) = runTag TagState.bad rest := rfl
    rw [this, ih]

theorem runTag_pending1_no_gt : ∀ (m : List Char), '>' ∉ m →
    runTag TagState.pending1 m = TagState.pending1 := by
  intro m
  induction m with
  | nil => intro _; rfl
  | cons c rest ih =>
    intro hgt
    have hc : c ≠ '>' := fun h => hgt (h ▸ List.mem_cons_self c rest)
    have hstep : tagStep TagState.pending1 c = TagState.pending1 := by
      simp [tagStep, hc]
    have : runTag TagState.pending1 (c :: rest) =
        runTag (tagStep TagState.pending1 c) rest := rfl
    rw [this, hstep]
    exact ih (fun h => hgt (List.mem_cons_of_mem _ h))

theorem bad_of_decomp : ∀ (a : List Char) (b c : List Char), b ≠ [] → '>' ∉ b →
    runTag TagState.clear (a ++ '<' :: (b ++ '>' :: c)) = TagState.bad := by
  intro a
  induction a with
  | nil =>
    intro b c hb hgt
    cases b with
    | nil => exact absurd rfl hb
    | cons x b' =>
      have hx : x ≠ '>' := fun h => hgt (h ▸ List.mem_cons_self x b')
      have h1 : runTag TagState.clear ([] ++ '<' :: (x :: b' ++ '>' :: c)) =
          runTag (tagStep TagState.pending0 x) (b' ++ '>' :: c) := rfl
      rw [h1]
      have hstep : tagStep TagState.pending0 x = TagState.pending1 := by
        simp [tagStep, hx]
      rw [hstep]
      have hb' : '>' ∉ b' := fun h => hgt (List.mem_cons_of_mem _ h)
      have h2 : runTag TagState.pending1 (b' ++ '>' :: c) =
          runTag (runTag TagState.pending1 b') ('>' :: c) := by
        simp [runTag, List.foldl_append]
      rw [h2, runTag_pending1_no_gt b' hb']
      have h3 : runTag TagState.pending1 ('>' :: c) =
          runTag TagState.bad c := rfl
      rw [h3, runTag_bad_absorb]
  | cons x a' ih =>
    intro b c hb hgt
    have h1 : runTag TagState.clear ((x :: a') ++ '<' :: (b ++ '>' :: c)) =
        runTag (tagStep TagState.clear x) (a' ++ '<' :: (b ++ '>' :: c)) := rfl
    rw [h1]
    have hmono := runTag_mono (a' ++ '<' :: (b ++ '>' :: c)) TagState.clear
      (tagStep TagState.clear x) (by cases hx : tagStep TagState.clear x <;> decide)
    rw [ih b c hb hgt] at hmono
    cases hfin : runTag (tagStep TagState.clear x) (a' ++ '<' :: (b ++ '>' :: c)) <;>
      rw [hfin] at hmono <;> first | rfl | (exfalso; revert hmono; decide)

/-! ### Generic edit-script lemmas -/

theorem editsInput_append : ∀ (a b : List Edit),
    editsInput (a ++ b) = editsInput a ++ editsInput b := by
  intro a b
  induction a with
  | nil => rfl
  | cons e r ih => cases e <;> simp [editsInput, ih]

theorem editsOutput_append : ∀ (a b : List Edit),
    editsOutput (a ++ b) = editsOutput a ++ editsOutput b := by
  intro a b
  induction a with
  | nil => rfl
  | cons e r ih => cases e <;> simp [editsOutput, ih]

theorem wsOk_append : ∀ (a b : List Edit), wsOk (a ++ b) = (wsOk a && wsOk b) := by
  intro a b
  induction a with
  | nil => rfl
  | cons e r ih => cases e <;> simp [wsOk, ih, Bool.and_assoc]

/-- The insertion-permission flag after processing an edit script. -/
def lastSafe (s : Bool) : List Edit → Bool
  | [] => s
  | Edit.copy c :: r => lastSafe (!(c == '<')) r
  | Edit.del _ :: r => lastSafe true r
  | Edit.ins _ :: r => lastSafe true r

theorem insOkF_append : ∀ (a b : List Edit) (s : Bool),
    insOkF s (a ++ b) = (insOkF s a && insOkF (lastSafe s a) b) := by
  intro a
  induction a with
  | nil => intro b s; simp [insOkF, lastSafe]
  | cons e r ih => intro b s; cases e <;> simp [insOkF, lastSafe, ih, Bool.and_assoc]

theorem editsInput_map_copy : ∀ l : List Char, editsInput (l.map Edit.copy) = l := by
  intro l
  induction l with
  | nil => rfl
  | cons c r ih => simp [editsInput, ih]

theorem editsInput_map_del : ∀ l : List Char, editsInput (l.map Edit.del) = l := by
  intro l
  induction l with
  | nil => rfl
  | cons c r ih => simp [editsInput, ih]

theorem editsOutput_map_copy : ∀ l : List Char, editsOutput (l.map Edit.copy) = l := by
  intro l
  induction l with
  | nil => rfl
  | cons c r ih => simp [editsOutput, ih]

theorem editsOutput_map_del : ∀ l : List Char, editsOutput (l.map Edit.del) = [] := by
  intro l
  induction l with
  | nil => rfl
  | cons c r ih => simp [editsOutput, ih]

theorem wsOk_map_copy : ∀ l : List Char, wsOk (l.map Edit.copy) = true := by
  intro l
  induction l with
  | nil => rfl
  | cons c r ih => simp [wsOk, ih]

theorem wsOk_map_del : ∀ l : List Char, l.all isPySpace = true →
    wsOk (l.map Edit.del) = true := by
  intro l
  induction l with
  | nil => intro _; rfl
  | cons c r ih =>
    intro h
    simp only [List.all_cons, Bool.and_eq_true] at h
    simp [wsOk, ih h.2, h.1]

theorem insOkF_map_copy : ∀ (l : List Char) (s : Bool),
    insOkF s (l.map Edit.copy) = true := by
  intro l
  induction l with
  | nil => intro s; rfl
  | cons c r ih => intro s; simp [insOkF, ih]

theorem insOkF_map_del : ∀ (l : List Char) (s : Bool),
    insOkF s (l.map Edit.del) = true := by
  intro l
  induction l with
  | nil => intro s; rfl
  | cons c r ih => intro s; simp [insOkF, ih]

theorem lastSafe_map_del_true : ∀ (l : List Char), lastSafe true (l.map Edit.del) = true := by
  intro l
  induction l with
  | nil => rfl
  | cons c r ih => simp [lastSafe, ih]

theorem lastSafe_map_copy_ne : ∀ (l : List Char) (s : Bool),
    (∀ c ∈ l, c ≠ '<') → l ≠ [] → lastSafe s (l.map Edit.copy) = true := by
  intro l
  induction l with
  | nil => intro s _ h; exact absurd rfl h
  | cons c r ih =>
    intro s hne _
    cases r with
    | nil =>
      have : c ≠ '<' := hne c (List.mem_cons_self c [])
      simp [lastSafe, this]
    | cons d r' =>
      show lastSafe (!(c == '<')) (List.map Edit.copy (d :: r')) = true
      exact ih (!(c == '<')) (fun x hx => hne x (List.mem_cons_of_mem _ hx)) (by simp)

theorem takeWhile_all (p : Char → Bool) : ∀ l : List Char,
    (l.takeWhile p).all p = true := by
  intro l
  induction l with
  | nil => rfl
  | cons c r ih =>
    by_cases h : p c
    · simp [List.takeWhile_cons, h, ih]
    · simp [List.takeWhile_cons, h]

theorem all_imp {p q : Char → Bool} (h : ∀ c, p c = true → q c = true) :
    ∀ l : List Char, l.all p = true → l.all q = true := by
  intro l
  induction l with
  | nil => intro _; rfl
  | cons c r ih =>
    intro hall
    simp only [List.all_cons, Bool.and_eq_true] at hall ⊢
    exact ⟨h c hall.1, ih hall.2⟩

/-! ### `re.sub(r'[ \t]+', ' ', text)` (src/response_formatter.py line 88) -/

def isSpTab (c : Char) : Bool := c = ' ' || c = '\t'

/-- The space/tab-collapsing scan as an edit script: each `[ \t]+` run is
deleted and a single space inserted.  Fuel is structural; `collapseSpTab`
supplies enough. -/
def spTabEditsF : Nat → List Char → List Edit
  | 0, l => l.map Edit.copy
  | _ + 1, [] => []
  | fuel + 1, c :: rest =>
    if isSpTab c then
      Edit.del c :: (rest.takeWhile isSpTab).map Edit.del ++ Edit.ins ' ' ::
        spTabEditsF fuel (rest.dropWhile isSpTab)
    else Edit.copy c :: spTabEditsF fuel rest

/-- `re.sub(r'[ \t]+', ' ', text)`. -/
def collapseSpTab (l : List Char) : List Char := editsOutput (spTabEditsF l.length l)

theorem spTabEditsF_input : ∀ (fuel : Nat) (l : List Char),
    editsInput (spTabEditsF fuel l) = l := by
  intro fuel
  induction fuel with
  | zero => intro l; exact editsInput_map_copy l
  | succ fuel ih =>
    intro l
    cases l with
    | nil => rfl
    | cons c rest =>
      by_cases h : isSpTab c
      · simp only [spTabEditsF, if_pos h]
        show c :: editsInput ((rest.takeWhile isSpTab).map Edit.del ++
          Edit.ins ' ' :: spTabEditsF fuel (rest.dropWhile isSpTab)) = c :: rest
        rw [editsInput_append, editsInput_map_del]
        show c :: (rest.takeWhile isSpTab ++
          editsInput (spTabEditsF fuel (rest.dropWhile isSpTab))) = c :: rest
        rw [ih, List.takeWhile_append_dropWhile]
      · simp only [spTabEditsF, if_neg h, editsInput]
        rw [ih]

theorem spTabEditsF_wsOk : ∀ (fuel : Nat) (l : List Char),
    wsOk (spTabEditsF fuel l) = true := by
  intro fuel
  induction fuel with
  | zero => intro l; exact wsOk_map_copy l
  | succ fuel ih =>
    intro l
    cases l with
    | nil => rfl
    | cons c rest =>
      by_cases h : isSpTab c
      · have hcw : isPySpace c = true := by
          simp only [isSpTab, Bool.or_eq_true, decide_eq_true_eq] at h
          rcases h with h | h <;> subst h <;> decide
        have hrun : (rest.takeWhile isSpTab).all isPySpace = true := by
          refine all_imp ?_ _ (takeWhile_all isSpTab rest)
          intro x hx
          simp only [isSpTab, Bool.or_eq_true, decide_eq_true_eq] at hx
          rcases hx with hx | hx <;> subst hx <;> decide
        simp only [spTabEditsF, if_pos h, wsOk, wsOk_append]
        simp [hcw, wsOk_map_del _ hrun, ih, show isPySpace ' ' = true from by decide]
      · simp only [spTabEditsF, if_neg h, wsOk]
        exact ih _

theorem spTabEditsF_insOk : ∀ (fuel : Nat) (l : List Char) (s : Bool),
    insOkF s (spTabEditsF fuel l) = true := by
  intro fuel
  induction fuel with
  | zero => intro l s; exact insOkF_map_copy l s
  | succ fuel ih =>
    intro l s
    cases l with
    | nil => rfl
    | cons c rest =>
      by_cases h : isSpTab c
      · simp only [spTabEditsF, if_pos h, insOkF, insOkF_append]
        simp [insOkF_map_del, lastSafe, lastSafe_map_del_true, insOkF, ih]
      · simp only [spTabEditsF, if_neg h, insOkF]
        exact ih _ _

/-! ### `text.strip()` (src/response_formatter.py line 114) -/

/-- The trailing whitespace of `l`. -/
def trailWs (l : List Char) : List Char :=
  ((l.dropWhile isPySpace).reverse.takeWhile isPySpace).reverse

/-- `str.strip()` as an edit script: delete the whitespace at both ends. -/
def stripEdits (l : List Char) : List Edit :=
  (l.takeWhile isPySpace).map Edit.del ++ (pyStripL l).map Edit.copy ++
    (trailWs l).map Edit.del

/-- `text.strip()` on character lists. -/
def stripEnds (l : List Char) : List Char := editsOutput (stripEdits l)

theorem strip_decomp (l : List Char) :
    l.takeWhile isPySpace ++ (pyStripL l ++ trailWs l) = l := by
  have h1 : pyStripL l ++ trailWs l = l.dropWhile isPySpace := by
    unfold pyStripL trailWs
    conv_rhs => rw [← List.reverse_reverse (l.dropWhile isPySpace)]
    rw [← List.reverse_append, List.takeWhile_append_dropWhile]
  rw [h1, List.takeWhile_append_dropWhile]

theorem stripEdits_input (l : List Char) : editsInput (stripEdits l) = l := by
  simp only [stripEdits, editsInput_append, editsInput_map_del, editsInput_map_copy]
  have := strip_decomp l
  simpa [List.append_assoc] using this

theorem trailWs_all (l : List Char) : (trailWs l).all isPySpace = true := by
  have h := takeWhile_all isPySpace (l.dropWhile isPySpace).reverse
  simp only [trailWs]
  rw [List.all_eq_true] at h ⊢
  intro x hx
  exact h x (List.mem_reverse.mp hx)

theorem stripEdits_wsOk (l : List Char) : wsOk (stripEdits l) = true := by
  simp only [stripEdits, wsOk_append]
  simp [wsOk_map_del _ (takeWhile_all isPySpace l), wsOk_map_copy,
    wsOk_map_del _ (trailWs_all l)]

theorem stripEdits_insOk (l : List Char) (s : Bool) : insOkF s (stripEdits l) = true := by
  simp only [stripEdits, insOkF_append]
  simp [insOkF_map_del, insOkF_map_copy]

/-! ### `re.sub(r'\n{3,}', '\n\n', text)` (src/response_formatter.py line 115) -/

/-- The newline-collapsing scan as an edit script: a run of three or more
newlines is deleted and two newlines are inserted in its place. -/
def clnEditsF : Nat → List Char → List Edit
  | 0, l => l.map Edit.copy
  | _ + 1, [] => []
  | fuel + 1, c :: rest =>
    if c = '\n' then
      if 2 ≤ (rest.takeWhile (· = '\n')).length then
        Edit.copy '\n' ::
          ((rest.takeWhile (· = '\n')).map Edit.del ++
            Edit.ins '\n' :: clnEditsF fuel (rest.dropWhile (· = '\n')))
      else Edit.copy '\n' :: clnEditsF fuel rest
    else Edit.copy c :: clnEditsF fuel rest

/-- `re.sub(r'\n{3,}', '\n\n', text)`. -/
def collapseNl (l : List Char) : List Char := editsOutput (clnEditsF l.length l)

theorem clnEditsF_input : ∀ (fuel : Nat) (l : List Char),
    editsInput (clnEditsF fuel l) = l := by
  intro fuel
  induction fuel with
  | zero => intro l; exact editsInput_map_copy l
  | succ fuel ih =>
    intro l
    cases l with
    | nil => rfl
    | cons c rest =>
      by_cases h : c = '\n'
      · subst h
        by_cases h2 : 2 ≤ (rest.takeWhile (· = '\n')).length
        · simp only [clnEditsF, if_pos h2, if_pos rfl]
          show '\n' :: editsInput ((rest.takeWhile (· = '\n')).map Edit.del ++
            Edit.ins '\n' :: clnEditsF fuel (rest.dropWhile (· = '\n'))) =
            '\n' :: rest
          rw [editsInput_append, editsInput_map_del]
          show '\n' :: (rest.takeWhile (· = '\n') ++
            editsInput (clnEditsF fuel (rest.dropWhile (· = '\n')))) = '\n' :: rest
          rw [ih, List.takeWhile_append_dropWhile]
        · simp only [clnEditsF, if_neg h2, if_pos rfl, editsInput]
          rw [ih]
      · simp only [clnEditsF, if_neg h, editsInput]
        rw [ih]

theorem clnEditsF_wsOk : ∀ (fuel : Nat) (l : List Char),
    wsOk (clnEditsF fuel l) = true := by
  intro fuel
  induction fuel with
  | zero => intro l; exact wsOk_map_copy l
  | succ fuel ih =>
    intro l
    cases l with
    | nil => rfl
    | cons c rest =>
      by_cases h : c = '\n'
      · subst h
        by_cases h2 : 2 ≤ (rest.takeWhile (· = '\n')).length
        · have hdel : (rest.takeWhile (· = '\n')).all isPySpace = true := by
            refine all_imp ?_ _ (takeWhile_all (· = '\n') rest)
            intro x hx
            simp only [decide_eq_true_eq] at hx
            subst hx
            decide
          simp only [clnEditsF, if_pos h2, if_pos rfl, wsOk, wsOk_append]
          simp [wsOk_map_del _ hdel, ih, show isPySpace '\n' = true from by decide]
        · simp only [clnEditsF, if_neg h2, if_pos rfl, wsOk]
          exact ih _
      · simp only [clnEditsF, if_neg h, wsOk]
        exact ih _

theorem clnEditsF_insOk : ∀ (fuel : Nat) (l : List Char) (s : Bool),
    insOkF s (clnEditsF fuel l) = true := by
  intro fuel
  induction fuel with
  | zero => intro l s; exact insOkF_map_copy l s
  | succ fuel ih =>
    intro l s
    cases l with
    | nil => rfl
    | cons c rest =>
      by_cases h : c = '\n'
      · subst h
        by_cases h2 : 2 ≤ (rest.takeWhile (· = '\n')).length
        · simp only [clnEditsF, if_pos h2, if_pos rfl, insOkF, insOkF_append]
          rcases hw : rest.takeWhile (· = '\n') with _ | ⟨x, xs⟩
          · rw [hw] at h2
            simp at h2
          · simp [insOkF, insOkF_map_del, lastSafe, lastSafe_map_del_true, ih]
        · simp only [clnEditsF, if_neg h2, if_pos rfl, insOkF]
          exact ih _ _
      · simp only [clnEditsF, if_neg h, insOkF]
        exact ih _ _

/-! ### `re.sub(r'\n\s*\n\s*\n', '\n\n', text)` (src/response_formatter.py line 87)

A match starts at a newline whose following whitespace run contains at
least two further newlines; with the greedy `\s*` the match extends through
the last newline of that run and is replaced by two newlines. -/

theorem rev_take_drop (p : Char → Bool) (m : List Char) :
    (m.reverse.dropWhile p).reverse ++ (m.reverse.takeWhile p).reverse = m := by
  conv_rhs => rw [← List.reverse_reverse m]
  rw [← List.reverse_append, List.takeWhile_append_dropWhile]

/-- The consumed whitespace after the opening newline: the prefix of the
whitespace run extending through its last newline. -/
def nlPre (rest : List Char) : List Char :=
  ((rest.takeWhile isPySpace).reverse.dropWhile (· ≠ '\n')).reverse

/-- What remains after the match: the newline-free tail of the whitespace
run followed by the rest of the text. -/
def nlRem (rest : List Char) : List Char :=
  ((rest.takeWhile isPySpace).reverse.takeWhile (· ≠ '\n')).reverse ++
    rest.dropWhile isPySpace

def sub87EditsF : Nat → List Char → List Edit
  | 0, l => l.map Edit.copy
  | _ + 1, [] => []
  | fuel + 1, c :: rest =>
    if c = '\n' ∧ 2 ≤ (rest.takeWhile isPySpace).count '\n' then
      Edit.copy '\n' :: (nlPre rest).map Edit.del ++ Edit.ins '\n' ::
        sub87EditsF fuel (nlRem rest)
    else Edit.copy c :: sub87EditsF fuel rest

/-- `re.sub(r'\n\s*\n\s*\n', '\n\n', text)`. -/
def sub87Run (l : List Char) : List Char := editsOutput (sub87EditsF l.length l)

theorem nlPre_nlRem (rest : List Char) : nlPre rest ++ nlRem rest = rest := by
  have h1 := rev_take_drop (· ≠ '\n') (rest.takeWhile isPySpace)
  calc nlPre rest ++ nlRem rest
      = (nlPre rest ++ ((rest.takeWhile isPySpace).reverse.takeWhile (· ≠ '\n')).reverse) ++
        rest.dropWhile isPySpace := by
        simp [nlRem, List.append_assoc]
    _ = rest.takeWhile isPySpace ++ rest.dropWhile isPySpace := by
        rw [show nlPre rest ++ ((rest.takeWhile isPySpace).reverse.takeWhile (· ≠ '\n')).reverse =
          rest.takeWhile isPySpace from h1]
    _ = rest := List.takeWhile_append_dropWhile isPySpace rest

theorem nlPre_all_ws (rest : List Char) : (nlPre rest).all isPySpace = true := by
  rw [List.all_eq_true]
  intro x hx
  have hx1 : x ∈ (rest.takeWhile isPySpace).reverse.dropWhile (· ≠ '\n') :=
    List.mem_reverse.mp hx
  have hx2 : x ∈ (rest.takeWhile isPySpace).reverse :=
    (List.dropWhile_sublist _).subset hx1
  have hx3 : x ∈ rest.takeWhile isPySpace := List.mem_reverse.mp hx2
  have hall := takeWhile_all isPySpace rest
  rw [List.all_eq_true] at hall
  exact hall x hx3

theorem nlPre_ne_nil (rest : List Char)
    (h : 2 ≤ (rest.takeWhile isPySpace).count '\n') : nlPre rest ≠ [] := by
  have hmem : '\n' ∈ rest.takeWhile isPySpace := by
    by_contra hn
    have := List.count_eq_zero.mpr hn
    omega
  have hmemr : '\n' ∈ (rest.takeWhile isPySpace).reverse := List.mem_reverse.mpr hmem
  intro hnil
  have : (rest.takeWhile isPySpace).reverse.dropWhile (· ≠ '\n') = [] := by
    have := congrArg List.reverse hnil
    simpa [nlPre] using this
  have hall := List.dropWhile_eq_nil_iff.mp this
  have := hall '\n' hmemr
  simp at this

theorem nlRem_lt (rest : List Char)
    (h : 2 ≤ (rest.takeWhile isPySpace).count '\n') :
    (nlRem rest).length < rest.length := by
  have hsplit := nlPre_nlRem rest
  have hlen : (nlPre rest).length + (nlRem rest).length = rest.length := by
    have := congrArg List.length hsplit
    simpa [List.length_append] using this
  have hne := nlPre_ne_nil rest h
  have : 0 < (nlPre rest).length := List.length_pos.mpr hne
  omega

theorem sub87EditsF_input : ∀ (fuel : Nat) (l : List Char),
    editsInput (sub87EditsF fuel l) = l := by
  intro fuel
  induction fuel with
  | zero => intro l; exact editsInput_map_copy l
  | succ fuel ih =>
    intro l
    cases l with
    | nil => rfl
    | cons c rest =>
      by_cases h : c = '\n' ∧ 2 ≤ (rest.takeWhile isPySpace).count '\n'
      · obtain ⟨hc, h2⟩ := h
        subst hc
        simp only [sub87EditsF]
        rw [if_pos (And.intro trivial h2)]
        show '\n' :: editsInput ((nlPre rest).map Edit.del ++ Edit.ins '\n' ::
          sub87EditsF fuel (nlRem rest)) = '\n' :: rest
        rw [editsInput_append, editsInput_map_del]
        show '\n' :: (nlPre rest ++ editsInput (sub87EditsF fuel (nlRem rest))) = '\n' :: rest
        rw [ih, nlPre_nlRem]
      · simp only [sub87EditsF, if_neg h, editsInput]
        rw [ih]

theorem sub87EditsF_wsOk : ∀ (fuel : Nat) (l : List Char),
    wsOk (sub87EditsF fuel l) = true := by
  intro fuel
  induction fuel with
  | zero => intro l; exact wsOk_map_copy l
  | succ fuel ih =>
    intro l
    cases l with
    | nil => rfl
    | cons c rest =>
      by_cases h : c = '\n' ∧ 2 ≤ (rest.takeWhile isPySpace).count '\n'
      · simp only [sub87EditsF, if_pos h, wsOk, wsOk_append]
        simp [wsOk_map_del _ (nlPre_all_ws rest), ih,
          show isPySpace '\n' = true from by decide]
      · simp only [sub87EditsF, if_neg h, wsOk]
        exact ih _

theorem sub87EditsF_insOk : ∀ (fuel : Nat) (l : List Char) (s : Bool),
    insOkF s (sub87EditsF fuel l) = true := by
  intro fuel
  induction fuel with
  | zero => intro l s; exact insOkF_map_copy l s
  | succ fuel ih =>
    intro l s
    cases l with
    | nil => rfl
    | cons c rest =>
      by_cases h : c = '\n' ∧ 2 ≤ (rest.takeWhile isPySpace).count '\n'
      · simp only [sub87EditsF, if_pos h, insOkF, insOkF_append]
        rcases hp : nlPre rest with _ | ⟨x, xs⟩
        · exact absurd hp (nlPre_ne_nil rest h.2)
        · simp [insOkF, insOkF_map_del, lastSafe, lastSafe_map_del_true, ih]
      · simp only [sub87EditsF, if_neg h, insOkF]
        exact ih _ _

/-! ### Line-by-line processing (src/response_formatter.py lines 91-101)

`text.split('\n')`, then each line is stripped, empty lines are dropped,
a leading-word whitespace run is collapsed to one space on lines that do
not start with a markdown marker, and the kept lines are joined with
single newlines. -/

def splitNlF : Nat → List Char → List (List Char)
  | 0, l => [l]
  | fuel + 1, l =>
    if '\n' ∈ l then
      l.takeWhile (· ≠ '\n') :: splitNlF fuel ((l.dropWhile (· ≠ '\n')).drop 1)
    else [l]

/-- `text.split('\n')`. -/
def splitNl (l : List Char) : List (List Char) := splitNlF l.length l

/-- `'\n'.join(...)`. -/
def joinNl : List (List Char) → List Char
  | [] => []
  | [x] => x
  | x :: y :: r => x ++ '\n' :: joinNl (y :: r)

theorem splitNlF_ne_nil : ∀ (fuel : Nat) (l : List Char), splitNlF fuel l ≠ [] := by
  intro fuel l
  cases fuel with
  | zero => simp [splitNlF]
  | succ fuel =>
    by_cases h : '\n' ∈ l
    · simp [splitNlF, h]
    · simp [splitNlF, h]

theorem nl_split (l : List Char) (h : '\n' ∈ l) :
    l = l.takeWhile (· ≠ '\n') ++ '\n' :: (l.dropWhile (· ≠ '\n')).drop 1 ∧
      ((l.dropWhile (· ≠ '\n')).drop 1).length < l.length := by
  cases hd : l.dropWhile (· ≠ '\n') with
  | nil =>
    exfalso
    have hall := List.dropWhile_eq_nil_iff.mp hd
    have := hall '\n' h
    simp at this
  | cons x xs =>
    have hx : x = '\n' := by
      have := dropWhile_head_false l x xs hd
      simpa using this
    subst hx
    have hsplit := List.takeWhile_append_dropWhile (· ≠ '\n') l
    rw [hd] at hsplit
    constructor
    · conv_lhs => rw [← hsplit]
      rfl
    · show xs.length < l.length
      have := congrArg List.length hsplit
      simp [List.length_append] at this
      omega

theorem joinNl_splitNlF : ∀ (fuel : Nat) (l : List Char), l.length ≤ fuel →
    joinNl (splitNlF fuel l) = l := by
  intro fuel
  induction fuel with
  | zero => intro l _; rfl
  | succ fuel ih =>
    intro l hl
    by_cases h : '\n' ∈ l
    · obtain ⟨hsplit, hlt⟩ := nl_split l h
      simp only [splitNlF, if_pos h]
      cases hs : splitNlF fuel ((l.dropWhile (· ≠ '\n')).drop 1) with
      | nil => exact absurd hs (splitNlF_ne_nil _ _)
      | cons y r =>
        show l.takeWhile (· ≠ '\n') ++ '\n' :: joinNl (y :: r) = l
        rw [← hs, ih _ (by omega)]
        exact hsplit.symm
    · simp only [splitNlF, if_neg h]
      rfl

def isAsciiLetter (c : Char) : Bool := ('A' ≤ c && c ≤ 'Z') || ('a' ≤ c && c ≤ 'z')

def isWordChar (c : Char) : Bool := isAsciiLetter c || ('0' ≤ c && c ≤ '9') || c = '_'

/-- `line.startswith(('#', '-', '*', '1.', '>'))`. -/
def startsSpecial (l : List Char) : Bool :=
  l.take 1 == ['#'] || l.take 1 == ['-'] || l.take 1 == ['*'] ||
    l.take 2 == ['1', '.'] || l.take 1 == ['>']

/-- `re.sub(r'^([A-Za-z]+)\s+', r'\1 ', line)` guarded by the marker check
(lines 97-98): on an unmarked line, a leading letter run followed by
whitespace keeps the letters, the run is replaced by one space. -/
def fwEdits (s : List Char) : List Edit :=
  if startsSpecial s then s.map Edit.copy
  else if s.takeWhile isAsciiLetter ≠ [] ∧
      (s.dropWhile isAsciiLetter).takeWhile isPySpace ≠ [] then
    (s.takeWhile isAsciiLetter).map Edit.copy ++
      ((s.dropWhile isAsciiLetter).takeWhile isPySpace).map Edit.del ++
      Edit.ins ' ' :: ((s.dropWhile isAsciiLetter).dropWhile isPySpace).map Edit.copy
  else s.map Edit.copy

theorem editsInput_ins (c : Char) (es : List Edit) :
    editsInput (Edit.ins c :: es) = editsInput es := rfl

theorem lastSafe_append : ∀ (a b : List Edit) (s : Bool),
    lastSafe s (a ++ b) = lastSafe (lastSafe s a) b := by
  intro a
  induction a with
  | nil => intro b s; rfl
  | cons e r ih => intro b s; cases e <;> simp [lastSafe, ih]

theorem fwEdits_input (s : List Char) : editsInput (fwEdits s) = s := by
  by_cases h1 : startsSpecial s
  · unfold fwEdits
    rw [if_pos h1, editsInput_map_copy]
  · by_cases h2 : s.takeWhile isAsciiLetter ≠ [] ∧
        (s.dropWhile isAsciiLetter).takeWhile isPySpace ≠ []
    · unfold fwEdits
      rw [if_neg h1, if_pos h2]
      simp only [editsInput_append, editsInput_map_copy, editsInput_map_del,
        editsInput_ins]
      rw [List.append_assoc,
        List.takeWhile_append_dropWhile isPySpace (s.dropWhile isAsciiLetter),
        List.takeWhile_append_dropWhile isAsciiLetter s]
    · unfold fwEdits
      rw [if_neg h1, if_neg h2, editsInput_map_copy]

theorem fwEdits_wsOk (s : List Char) : wsOk (fwEdits s) = true := by
  by_cases h1 : startsSpecial s
  · unfold fwEdits
    rw [if_pos h1, wsOk_map_copy]
  · by_cases h2 : s.takeWhile isAsciiLetter ≠ [] ∧
        (s.dropWhile isAsciiLetter).takeWhile isPySpace ≠ []
    · unfold fwEdits
      rw [if_neg h1, if_pos h2]
      simp [wsOk_append, wsOk, wsOk_map_copy,
        wsOk_map_del _ (takeWhile_all isPySpace _),
        show isPySpace ' ' = true from by decide]
    · unfold fwEdits
      rw [if_neg h1, if_neg h2, wsOk_map_copy]

theorem fwEdits_insOk (s : List Char) (b : Bool) : insOkF b (fwEdits s) = true := by
  by_cases h1 : startsSpecial s
  · unfold fwEdits
    rw [if_pos h1, insOkF_map_copy]
  · by_cases h2 : s.takeWhile isAsciiLetter ≠ [] ∧
        (s.dropWhile isAsciiLetter).takeWhile isPySpace ≠ []
    · unfold fwEdits
      rw [if_neg h1, if_pos h2]
      rcases hw : (s.dropWhile isAsciiLetter).takeWhile isPySpace with _ | ⟨x, xs⟩
      · exact absurd hw h2.2
      · simp [insOkF_append, insOkF_map_copy, insOkF_map_del, insOkF,
          lastSafe_append, lastSafe, lastSafe_map_del_true]
    · unfold fwEdits
      rw [if_neg h1, if_neg h2, insOkF_map_copy]

/-- `pyStripL l = []` forces the whole line to be whitespace. -/
theorem pyStripL_nil_all_ws (l : List Char) (h : pyStripL l = []) :
    l.all isPySpace = true := by
  have h1 : (l.dropWhile isPySpace).reverse.dropWhile isPySpace = [] := by
    have := congrArg List.reverse h
    simpa [pyStripL] using this
  have h2 := List.dropWhile_eq_nil_iff.mp h1
  rw [List.all_eq_true]
  intro x hx
  have hsplit := List.takeWhile_append_dropWhile isPySpace l
  rw [← hsplit] at hx
  rcases List.mem_append.mp hx with hx | hx
  · have := takeWhile_all isPySpace l
    rw [List.all_eq_true] at this
    exact this x hx
  · exact h2 x (List.mem_reverse.mpr hx)

/-- One kept line: leading whitespace deleted, the stripped body with the
first-word fix, trailing whitespace deleted; a joining newline is inserted
before every kept line except the first. -/
def lineKeep (first : Bool) (line : List Char) : List Edit :=
  (if first then [] else [Edit.ins '\n']) ++
    (line.takeWhile isPySpace).map Edit.del ++
    fwEdits (pyStripL line) ++
    (trailWs line).map Edit.del

/-- Lines 91-101 as one edit script over the '\n'-joined line list. -/
def lineProcEdits : Bool → List (List Char) → List Edit
  | _, [] => []
  | first, [line] =>
    if pyStripL line = [] then line.map Edit.del else lineKeep first line
  | first, line :: next :: rest =>
    if pyStripL line = [] then
      line.map Edit.del ++ Edit.del '\n' :: lineProcEdits first (next :: rest)
    else
      lineKeep first line ++ Edit.del '\n' :: lineProcEdits false (next :: rest)

/-- The line-processing step (split, strip, drop empties, first-word fix,
join). -/
def processLines (l : List Char) : List Char :=
  editsOutput (lineProcEdits true (splitNl l))

theorem lineKeep_input (first : Bool) (line : List Char) :
    editsInput (lineKeep first line) = line := by
  have hbody : editsInput ((line.takeWhile isPySpace).map Edit.del ++
      fwEdits (pyStripL line) ++ (trailWs line).map Edit.del) = line := by
    rw [editsInput_append, editsInput_append, editsInput_map_del, editsInput_map_del,
      fwEdits_input]
    have := strip_decomp line
    simpa [List.append_assoc] using this
  cases first with
  | true => simpa [lineKeep] using hbody
  | false =>
    show editsInput (Edit.ins '\n' :: ((line.takeWhile isPySpace).map Edit.del ++
      fwEdits (pyStripL line) ++ (trailWs line).map Edit.del)) = line
    show editsInput ((line.takeWhile isPySpace).map Edit.del ++
      fwEdits (pyStripL line) ++ (trailWs line).map Edit.del) = line
    exact hbody

theorem lineKeep_wsOk (first : Bool) (line : List Char) :
    wsOk (lineKeep first line) = true := by
  have hbody : wsOk ((line.takeWhile isPySpace).map Edit.del ++
      fwEdits (pyStripL line) ++ (trailWs line).map Edit.del) = true := by
    rw [wsOk_append, wsOk_append]
    simp [wsOk_map_del _ (takeWhile_all isPySpace line), fwEdits_wsOk,
      wsOk_map_del _ (trailWs_all line)]
  cases first with
  | true => simpa [lineKeep] using hbody
  | false =>
    show wsOk (Edit.ins '\n' :: ((line.takeWhile isPySpace).map Edit.del ++
      fwEdits (pyStripL line) ++ (trailWs line).map Edit.del)) = true
    simp only [wsOk, hbody, show isPySpace '\n' = true from by decide]
    rfl

theorem lineKeep_insOk (first : Bool) (line : List Char) :
    insOkF true (lineKeep first line) = true := by
  have hbody : ∀ b, insOkF b ((line.takeWhile isPySpace).map Edit.del ++
      fwEdits (pyStripL line) ++ (trailWs line).map Edit.del) = true := by
    intro b
    rw [insOkF_append, insOkF_append]
    simp [insOkF_map_del, fwEdits_insOk]
  cases first with
  | true => simpa [lineKeep] using hbody true
  | false =>
    show insOkF true (Edit.ins '\n' :: ((line.takeWhile isPySpace).map Edit.del ++
      fwEdits (pyStripL line) ++ (trailWs line).map Edit.del)) = true
    simp only [insOkF, hbody, Bool.true_and]

theorem lineProcEdits_input : ∀ (lines : List (List Char)) (first : Bool),
    editsInput (lineProcEdits first lines) = joinNl lines := by
  intro lines
  induction lines with
  | nil => intro first; rfl
  | cons line rest ih =>
    intro first
    cases rest with
    | nil =>
      by_cases h : pyStripL line = []
      · simp [lineProcEdits, h, editsInput_map_del, joinNl]
      · simp [lineProcEdits, h, lineKeep_input, joinNl]
    | cons next r2 =>
      by_cases h : pyStripL line = []
      · simp only [lineProcEdits, if_pos h, editsInput_append, editsInput_map_del]
        show line ++ editsInput (Edit.del '\n' :: lineProcEdits first (next :: r2)) =
          joinNl (line :: next :: r2)
        show line ++ '\n' :: editsInput (lineProcEdits first (next :: r2)) =
          joinNl (line :: next :: r2)
        rw [ih]
        rfl
      · simp only [lineProcEdits, if_neg h, editsInput_append, lineKeep_input]
        show line ++ editsInput (Edit.del '\n' :: lineProcEdits false (next :: r2)) =
          joinNl (line :: next :: r2)
        show line ++ '\n' :: editsInput (lineProcEdits false (next :: r2)) =
          joinNl (line :: next :: r2)
        rw [ih]
        rfl

theorem lineProcEdits_wsOk : ∀ (lines : List (List Char)) (first : Bool),
    wsOk (lineProcEdits first lines) = true := by
  intro lines
  induction lines with
  | nil => intro first; rfl
  | cons line rest ih =>
    intro first
    cases rest with
    | nil =>
      by_cases h : pyStripL line = []
      · simp [lineProcEdits, h, wsOk_map_del _ (pyStripL_nil_all_ws line h)]
      · simp [lineProcEdits, h, lineKeep_wsOk]
    | cons next r2 =>
      by_cases h : pyStripL line = []
      · simp only [lineProcEdits, if_pos h, wsOk_append]
        simp [wsOk_map_del _ (pyStripL_nil_all_ws line h), wsOk, ih,
          show isPySpace '\n' = true from by decide]
      · simp only [lineProcEdits, if_neg h, wsOk_append]
        simp [lineKeep_wsOk, wsOk, ih, show isPySpace '\n' = true from by decide]

theorem lineProcEdits_insOk : ∀ (lines : List (List Char)) (first : Bool),
    insOkF true (lineProcEdits first lines) = true := by
  intro lines
  induction lines with
  | nil => intro first; rfl
  | cons line rest ih =>
    intro first
    cases rest with
    | nil =>
      by_cases h : pyStripL line = []
      · simp [lineProcEdits, h, insOkF_map_del]
      · simp [lineProcEdits, h, lineKeep_insOk]
    | cons next r2 =>
      by_cases h : pyStripL line = []
      · simp only [lineProcEdits, if_pos h, insOkF_append]
        simp [insOkF_map_del, insOkF, ih]
      · simp only [lineProcEdits, if_neg h, insOkF_append]
        simp [lineKeep_insOk, insOkF, ih]

/-! ### Bold/italic spacing fixes (src/response_formatter.py lines 104-107)

`re.sub(r'\*\*\s+(\w)', r'**\1', ...)` and the three variants: a star
marker, a whitespace run and a word character; the run is deleted.  The
opener and closer shapes are shared by the bold (`**`) and italic (`*`)
passes. -/

def isWordHead : List Char → Bool
  | d :: _ => isWordChar d
  | [] => false

theorem isPrefixOf_append_drop : ∀ (p l : List Char), p.isPrefixOf l = true →
    p ++ l.drop p.length = l := by
  intro p
  induction p with
  | nil => intro l _; rfl
  | cons a as ih =>
    intro l h
    cases l with
    | nil => simp [List.isPrefixOf] at h
    | cons b bs =>
      simp only [List.isPrefixOf, Bool.and_eq_true, beq_iff_eq] at h
      obtain ⟨hab, hpre⟩ := h
      subst hab
      simp only [List.length_cons, List.drop_succ_cons, List.cons_append]
      rw [ih bs hpre]

theorem headD_cons_drop : ∀ (m : List Char), m ≠ [] → m.headD ' ' :: m.drop 1 = m := by
  intro m h
  cases m with
  | nil => exact absurd rfl h
  | cons x xs => rfl

theorem isWordHead_ne_nil (m : List Char) (h : isWordHead m = true) : m ≠ [] := by
  cases m with
  | nil => simp [isWordHead] at h
  | cons x xs => simp

def openHit (stars : List Char) (l : List Char) : Bool :=
  stars.isPrefixOf l &&
    !((l.drop stars.length).takeWhile isPySpace).isEmpty &&
    isWordHead ((l.drop stars.length).dropWhile isPySpace)

def openFixF (stars : List Char) : Nat → List Char → List Edit
  | 0, l => l.map Edit.copy
  | _ + 1, [] => []
  | fuel + 1, c :: rest =>
    if openHit stars (c :: rest) then
      stars.map Edit.copy ++
        (((c :: rest).drop stars.length).takeWhile isPySpace).map Edit.del ++
        Edit.copy ((((c :: rest).drop stars.length).dropWhile isPySpace).headD ' ') ::
        openFixF stars fuel ((((c :: rest).drop stars.length).dropWhile isPySpace).drop 1)
    else Edit.copy c :: openFixF stars fuel rest

def closeHit (stars : List Char) (c : Char) (rest : List Char) : Bool :=
  isWordChar c && !(rest.takeWhile isPySpace).isEmpty &&
    stars.isPrefixOf (rest.dropWhile isPySpace)

def closeFixF (stars : List Char) : Nat → List Char → List Edit
  | 0, l => l.map Edit.copy
  | _ + 1, [] => []
  | fuel + 1, c :: rest =>
    if closeHit stars c rest then
      Edit.copy c :: (rest.takeWhile isPySpace).map Edit.del ++
        stars.map Edit.copy ++
        closeFixF stars fuel ((rest.dropWhile isPySpace).drop stars.length)
    else Edit.copy c :: closeFixF stars fuel rest

theorem openFixF_input (stars : List Char) : ∀ (fuel : Nat) (l : List Char),
    editsInput (openFixF stars fuel l) = l := by
  intro fuel
  induction fuel with
  | zero => intro l; exact editsInput_map_copy l
  | succ fuel ih =>
    intro l
    cases l with
    | nil => rfl
    | cons c rest =>
      by_cases h : openHit stars (c :: rest) = true
      · have hparts := h
        simp only [openHit, Bool.and_eq_true] at hparts
        obtain ⟨⟨hpre, _⟩, hword⟩ := hparts
        simp only [openFixF, if_pos h]
        rw [editsInput_append, editsInput_append, editsInput_map_copy,
          editsInput_map_del]
        show stars ++ ((c :: rest).drop stars.length).takeWhile isPySpace ++
          ((((c :: rest).drop stars.length).dropWhile isPySpace).headD ' ' ::
            editsInput (openFixF stars fuel
              ((((c :: rest).drop stars.length).dropWhile isPySpace).drop 1))) = c :: rest
        rw [ih, headD_cons_drop _ (isWordHead_ne_nil _ hword), List.append_assoc,
          List.takeWhile_append_dropWhile, isPrefixOf_append_drop _ _ hpre]
      · simp only [openFixF, if_neg h, editsInput]
        rw [ih]

theorem openFixF_wsOk (stars : List Char) : ∀ (fuel : Nat) (l : List Char),
    wsOk (openFixF stars fuel l) = true := by
  intro fuel
  induction fuel with
  | zero => intro l; exact wsOk_map_copy l
  | succ fuel ih =>
    intro l
    cases l with
    | nil => rfl
    | cons c rest =>
      by_cases h : openHit stars (c :: rest) = true
      · simp only [openFixF, if_pos h]
        simp [wsOk_append, wsOk, wsOk_map_copy,
          wsOk_map_del _ (takeWhile_all isPySpace _), ih]
      · simp only [openFixF, if_neg h, wsOk]
        exact ih _

theorem openFixF_insOk (stars : List Char) : ∀ (fuel : Nat) (l : List Char) (s : Bool),
    insOkF s (openFixF stars fuel l) = true := by
  intro fuel
  induction fuel with
  | zero => intro l s; exact insOkF_map_copy l s
  | succ fuel ih =>
    intro l s
    cases l with
    | nil => rfl
    | cons c rest =>
      by_cases h : openHit stars (c :: rest) = true
      · simp only [openFixF, if_pos h]
        simp [insOkF_append, insOkF_map_copy, insOkF_map_del, insOkF, ih]
      · simp only [openFixF, if_neg h, insOkF]
        exact ih _ _

theorem closeFixF_input (stars : List Char) : ∀ (fuel : Nat) (l : List Char),
    editsInput (closeFixF stars fuel l) = l := by
  intro fuel
  induction fuel with
  | zero => intro l; exact editsInput_map_copy l
  | succ fuel ih =>
    intro l
    cases l with
    | nil => rfl
    | cons c rest =>
      by_cases h : closeHit stars c rest = true
      · have hparts := h
        simp only [closeHit, Bool.and_eq_true] at hparts
        obtain ⟨⟨_, _⟩, hpre⟩ := hparts
        simp only [closeFixF, if_pos h]
        rw [editsInput_append, editsInput_append]
        have h1 : editsInput (Edit.copy c :: (rest.takeWhile isPySpace).map Edit.del) =
            c :: rest.takeWhile isPySpace := by
          show c :: editsInput ((rest.takeWhile isPySpace).map Edit.del) =
            c :: rest.takeWhile isPySpace
          rw [editsInput_map_del]
        rw [h1, editsInput_map_copy, ih, List.cons_append, List.cons_append,
          List.append_assoc, isPrefixOf_append_drop _ _ hpre,
          List.takeWhile_append_dropWhile]
      · simp only [closeFixF, if_neg h, editsInput]
        rw [ih]

theorem closeFixF_wsOk (stars : List Char) : ∀ (fuel : Nat) (l : List Char),
    wsOk (closeFixF stars fuel l) = true := by
  intro fuel
  induction fuel with
  | zero => intro l; exact wsOk_map_copy l
  | succ fuel ih =>
    intro l
    cases l with
    | nil => rfl
    | cons c rest =>
      by_cases h : closeHit stars c rest = true
      · simp only [closeFixF, if_pos h]
        simp [wsOk_append, wsOk, wsOk_map_copy,
          wsOk_map_del _ (takeWhile_all isPySpace _), ih]
      · simp only [closeFixF, if_neg h, wsOk]
        exact ih _

theorem closeFixF_insOk (stars : List Char) : ∀ (fuel : Nat) (l : List Char) (s : Bool),
    insOkF s (closeFixF stars fuel l) = true := by
  intro fuel
  induction fuel with
  | zero => intro l s; exact insOkF_map_copy l s
  | succ fuel ih =>
    intro l s
    cases l with
    | nil => rfl
    | cons c rest =>
      by_cases h : closeHit stars c rest = true
      · simp only [closeFixF, if_pos h]
        simp [insOkF_append, insOkF_map_copy, insOkF_map_del, insOkF, ih]
      · simp only [closeFixF, if_neg h, insOkF]
        exact ih _ _

/-- `re.sub(r'\*\*\s+(\w)', r'**\1', text)` (line 104). -/
def boldOpenRun (l : List Char) : List Char :=
  editsOutput (openFixF ['*', '*'] l.length l)

/-- `re.sub(r'(\w)\s+\*\*', r'\1**', text)` (line 105). -/
def boldCloseRun (l : List Char) : List Char :=
  editsOutput (closeFixF ['*', '*'] l.length l)

/-- `re.sub(r'\*\s+(\w)', r'*\1', text)` (line 106). -/
def italOpenRun (l : List Char) : List Char :=
  editsOutput (openFixF ['*'] l.length l)

/-- `re.sub(r'(\w)\s+\*', r'\1*', text)` (line 107). -/
def italCloseRun (l : List Char) : List Char :=
  editsOutput (closeFixF ['*'] l.length l)

/-! ### Header and list-item spacing fixes (src/response_formatter.py lines 110-111)

`re.sub(r'(^|\n)(#{1,6})\s*([^\n]+)', r'\1\2 \3', text)` and the single-dash
variant.  A match sits at the string start or just after a newline; after
the marker the greedy `\s*` swallows whitespace up to the first following
non-whitespace character — or, when only whitespace remains, backtracks so
that the last non-newline whitespace character becomes the `[^\n]+`
content.  The swallowed whitespace is replaced by one space. -/

/-- The `\s*([^\n]+)` tail after the marker: edits for the consumed part
and the unconsumed remainder, `none` when nothing can serve as content. -/
def tailTry (after : List Char) : Option (List Edit × List Char) :=
  if after.dropWhile isPySpace ≠ [] then
    some ((after.takeWhile isPySpace).map Edit.del ++ Edit.ins ' ' ::
      ((after.dropWhile isPySpace).takeWhile (· ≠ '\n')).map Edit.copy,
      (after.dropWhile isPySpace).dropWhile (· ≠ '\n'))
  else if after.reverse.dropWhile (· = '\n') ≠ [] then
    some ((((after.reverse.dropWhile (· = '\n')).drop 1).reverse).map Edit.del ++
      Edit.ins ' ' :: [Edit.copy ((after.reverse.dropWhile (· = '\n')).headD ' ')],
      (after.reverse.takeWhile (· = '\n')).reverse)
  else none

theorem tailTry_some : ∀ (after : List Char) (es : List Edit) (rem : List Char),
    tailTry after = some (es, rem) →
    editsInput es ++ rem = after ∧ rem.length < after.length ∧ wsOk es = true ∧
      insOkF true es = true := by
  intro after es rem h
  unfold tailTry at h
  by_cases h1 : after.dropWhile isPySpace ≠ []
  · rw [if_pos h1] at h
    simp only [Option.some.injEq, Prod.mk.injEq] at h
    obtain ⟨hes, hrem⟩ := h
    subst hes
    subst hrem
    rcases hR : after.dropWhile isPySpace with _ | ⟨d, t⟩
    · exact absurd hR h1
    have hd : isPySpace d = false := dropWhile_head_false after d t hR
    refine ⟨?_, ?_, ?_, ?_⟩
    · rw [editsInput_append, editsInput_map_del, editsInput_ins, editsInput_map_copy,
        List.append_assoc, List.takeWhile_append_dropWhile, ← hR,
        List.takeWhile_append_dropWhile]
    · have hsp := List.takeWhile_append_dropWhile isPySpace after
      have hlen : (after.takeWhile isPySpace).length + (d :: t).length = after.length := by
        have := congrArg List.length hsp
        rw [hR] at this
        simpa [List.length_append] using this
      have hdne : decide (d ≠ '\n') = true := by
        simp only [decide_eq_true_eq]
        intro hdd
        subst hdd
        simp [isPySpace] at hd
      have he2 : ((after.dropWhile isPySpace).dropWhile (· ≠ '\n')).length =
          ((d :: t).dropWhile (· ≠ '\n')).length := by rw [hR]
      have hf : ((d :: t).dropWhile (· ≠ '\n')).length ≤ t.length := by
        rw [List.dropWhile_cons, if_pos (by simpa using hdne)]
        exact (List.dropWhile_sublist _).length_le
      simp only [List.length_cons] at hlen
      omega
    · rw [wsOk_append]
      simp [wsOk, wsOk_map_copy, wsOk_map_del _ (takeWhile_all isPySpace _),
        show isPySpace ' ' = true from by decide]
    · rw [insOkF_append]
      simp [insOkF, insOkF_map_copy, insOkF_map_del, lastSafe_map_del_true]
  · rw [if_neg h1] at h
    by_cases h2 : after.reverse.dropWhile (· = '\n') ≠ []
    · rw [if_pos h2] at h
      simp only [Option.some.injEq, Prod.mk.injEq] at h
      obtain ⟨hes, hrem⟩ := h
      subst hes
      subst hrem
      have hall : after.all isPySpace = true := by
        rw [List.all_eq_true]
        intro x hx
        have hnil : after.dropWhile isPySpace = [] := by
          by_contra hc
          exact h1 hc
        exact List.dropWhile_eq_nil_iff.mp hnil x hx
      have hD := headD_cons_drop (after.reverse.dropWhile (· = '\n')) h2
      have hsplit : after.reverse.takeWhile (· = '\n') ++
          after.reverse.dropWhile (· = '\n') = after.reverse :=
        List.takeWhile_append_dropWhile _ _
      have hafter : ((after.reverse.dropWhile (· = '\n')).drop 1).reverse ++
          ((after.reverse.dropWhile (· = '\n')).headD ' ' ::
            (after.reverse.takeWhile (· = '\n')).reverse) = after := by
        conv_rhs => rw [← List.reverse_reverse after, ← hsplit, ← hD]
        rw [List.reverse_append, List.reverse_cons, List.append_assoc,
          List.singleton_append]
      refine ⟨?_, ?_, ?_, ?_⟩
      · rw [editsInput_append, editsInput_map_del, editsInput_ins]
        show ((after.reverse.dropWhile (· = '\n')).drop 1).reverse ++
          ((after.reverse.dropWhile (· = '\n')).headD ' ' :: []) ++
          (after.reverse.takeWhile (· = '\n')).reverse = after
        rw [List.append_assoc]
        exact hafter
      · have := congrArg List.length hafter
        simp only [List.length_append, List.length_cons, List.length_reverse] at this
        rw [List.length_reverse]
        omega
      · have hdels : (((after.reverse.dropWhile (· = '\n')).drop 1).reverse).all
            isPySpace = true := by
          rw [List.all_eq_true]
          intro x hx
          have hx1 : x ∈ (after.reverse.dropWhile (· = '\n')).drop 1 :=
            List.mem_reverse.mp hx
          have hx2 : x ∈ after.reverse.dropWhile (· = '\n') :=
            (List.drop_sublist _ _).subset hx1
          have hx3 : x ∈ after.reverse := (List.dropWhile_sublist _).subset hx2
          have hx4 : x ∈ after := List.mem_reverse.mp hx3
          exact List.all_eq_true.mp hall x hx4
        rw [wsOk_append, wsOk_map_del _ hdels]
        simp [wsOk, show isPySpace ' ' = true from by decide]
      · rw [insOkF_append, insOkF_map_del, lastSafe_map_del_true]
        simp [insOkF]
    · rw [if_neg h2] at h
      cases h

def hdrN (l : List Char) : Nat := min (l.takeWhile (· = '#')).length 6

/-- The `(#{1,6})\s*([^\n]+)` part at an anchor.  When the greedy hash run
followed by `tailTry` fails (only newlines after the hashes), the engine
backtracks to one fewer hash and the remaining hash becomes the content. -/
def hdrTry (l : List Char) : Option (List Edit × List Char) :=
  if l.takeWhile (· = '#') = [] then none
  else
    Option.elim (tailTry (l.drop (hdrN l)))
      (if 2 ≤ hdrN l then
        some ((l.take (hdrN l - 1)).map Edit.copy ++
          Edit.ins ' ' :: [Edit.copy '#'], l.drop (hdrN l))
      else none)
      (fun p => some ((l.take (hdrN l)).map Edit.copy ++ p.1, p.2))

/-- The `-\s*([^\n]+)` part at an anchor. -/
def listTry (l : List Char) : Option (List Edit × List Char) :=
  match l with
  | c :: rest =>
    if c = '-' then
      Option.elim (tailTry rest) none
        (fun p => some (Edit.copy '-' :: p.1, p.2))
    else none
  | [] => none

theorem take_hash (l : List Char) (n : Nat)
    (h : n ≤ (l.takeWhile (· = '#')).length) :
    l.take n = List.replicate n '#' := by
  have hsplit := List.takeWhile_append_dropWhile (· = '#') l
  have h1 : l.take n = (l.takeWhile (· = '#')).take n := by
    conv_lhs => rw [← hsplit]
    rw [List.take_append_eq_append_take]
    have h0 : n - (l.takeWhile (· = '#')).length = 0 := by omega
    rw [h0]
    simp
  rw [h1]
  rw [List.eq_replicate_iff]
  constructor
  · rw [List.length_take]
    omega
  · intro b hb
    have hmem := List.mem_of_mem_take hb
    have hall := takeWhile_all (· = '#') l
    rw [List.all_eq_true] at hall
    have := hall b hmem
    simpa using this

theorem hdrTry_some : ∀ (l : List Char) (es : List Edit) (rem : List Char),
    hdrTry l = some (es, rem) →
    editsInput es ++ rem = l ∧ rem.length < l.length ∧ wsOk es = true ∧
      insOkF true es = true := by
  intro l es rem h
  unfold hdrTry at h
  by_cases h1 : l.takeWhile (· = '#') = []
  · rw [if_pos h1] at h
    cases h
  · rw [if_neg h1] at h
    have hn1 : 1 ≤ hdrN l := by
      have hp : 0 < (l.takeWhile (· = '#')).length :=
        List.length_pos.mpr h1
      unfold hdrN
      omega
    have hnle : hdrN l ≤ (l.takeWhile (· = '#')).length := by
      unfold hdrN
      omega
    have hlenle : (l.takeWhile (· = '#')).length ≤ l.length :=
      (List.takeWhile_sublist _).length_le
    have hrepl := take_hash l (hdrN l) hnle
    cases ht : tailTry (l.drop (hdrN l)) with
    | some p =>
      rw [ht] at h
      simp only [Option.elim, Option.some.injEq, Prod.mk.injEq] at h
      obtain ⟨hes, hrem⟩ := h
      subst hes
      subst hrem
      obtain ⟨hti, htl, htw, htik⟩ := tailTry_some _ _ _ ht
      refine ⟨?_, ?_, ?_, ?_⟩
      · rw [editsInput_append, editsInput_map_copy, List.append_assoc, hti,
          List.take_append_drop]
      · have : (l.drop (hdrN l)).length ≤ l.length := by
          rw [List.length_drop]
          omega
        omega
      · rw [wsOk_append, wsOk_map_copy, htw]
        rfl
      · rw [insOkF_append]
        rw [insOkF_map_copy]
        have hls : lastSafe true ((l.take (hdrN l)).map Edit.copy) = true := by
          rw [hrepl]
          apply lastSafe_map_copy_ne
          · intro c hc
            have := List.eq_of_mem_replicate hc
            subst this
            decide
          · intro hrep
            have := congrArg List.length hrep
            simp [List.length_replicate] at this
            omega
        rw [hls]
        simp [htik]
    | none =>
      rw [ht] at h
      by_cases h2 : 2 ≤ hdrN l
      · rw [Option.elim, if_pos h2] at h
        simp only [Option.some.injEq, Prod.mk.injEq] at h
        obtain ⟨hes, hrem⟩ := h
        subst hes
        subst hrem
        have hrepl1 := take_hash l (hdrN l - 1) (by omega)
        refine ⟨?_, ?_, ?_, ?_⟩
        · rw [editsInput_append, editsInput_map_copy, editsInput_ins]
          show l.take (hdrN l - 1) ++ ('#' :: []) ++ l.drop (hdrN l) = l
          rw [hrepl1]
          have hstep : List.replicate (hdrN l - 1) '#' ++ ('#' :: []) =
              List.replicate (hdrN l) '#' := by
            have : hdrN l = (hdrN l - 1) + 1 := by omega
            rw [this, List.replicate_succ']
            rfl
          rw [hstep, ← hrepl, List.take_append_drop]
        · rw [List.length_drop]
          omega
        · rw [wsOk_append, wsOk_map_copy]
          decide
        · rw [insOkF_append]
          rw [insOkF_map_copy]
          have hls : lastSafe true ((l.take (hdrN l - 1)).map Edit.copy) = true := by
            rw [hrepl1]
            apply lastSafe_map_copy_ne
            · intro c hc
              have := List.eq_of_mem_replicate hc
              subst this
              decide
            · intro hrep
              have := congrArg List.length hrep
              simp [List.length_replicate] at this
              omega
          rw [hls]
          simp [insOkF]
      · rw [Option.elim, if_neg h2] at h
        cases h

theorem listTry_some : ∀ (l : List Char) (es : List Edit) (rem : List Char),
    listTry l = some (es, rem) →
    editsInput es ++ rem = l ∧ rem.length < l.length ∧ wsOk es = true ∧
      insOkF true es = true := by
  intro l es rem h
  cases l with
  | nil => cases h
  | cons c rest =>
    simp only [listTry] at h
    by_cases hc : c = '-'
    · rw [if_pos hc] at h
      subst hc
      cases ht : tailTry rest with
      | none =>
        rw [ht] at h
        cases h
      | some p =>
        rw [ht] at h
        simp only [Option.elim, Option.some.injEq, Prod.mk.injEq] at h
        obtain ⟨hes, hrem⟩ := h
        subst hes
        subst hrem
        obtain ⟨hti, htl, htw, htik⟩ := tailTry_some _ _ _ ht
        refine ⟨?_, ?_, ?_, ?_⟩
        · show '-' :: (editsInput p.1 ++ p.2) = '-' :: rest
          rw [hti]
        · simp only [List.length_cons]
          omega
        · show wsOk p.1 = true
          exact htw
        · show insOkF (!('-' == '<')) p.1 = true
          simpa using htik
    · rw [if_neg hc] at h
      cases h

/-- The `(^|\n)`-anchored scan after the start-of-string attempt: a match
may begin at each newline, which is copied as the `\1` capture. -/
def anchScanF (t : List Char → Option (List Edit × List Char)) :
    Nat → List Char → List Edit
  | 0, l => l.map Edit.copy
  | _ + 1, [] => []
  | fuel + 1, c :: rest =>
    if c = '\n' then
      Edit.copy '\n' :: Option.elim (t rest)
        (anchScanF t fuel rest)
        (fun p => p.1 ++ anchScanF t fuel p.2)
    else Edit.copy c :: anchScanF t fuel rest

/-- A whole `(^|\n)`-anchored substitution as an edit script. -/
def anchEdits (t : List Char → Option (List Edit × List Char))
    (l : List Char) : List Edit :=
  Option.elim (t l) (anchScanF t l.length l)
    (fun p => p.1 ++ anchScanF t l.length p.2)

theorem anchScanF_input (t : List Char → Option (List Edit × List Char))
    (hc : ∀ l es rem, t l = some (es, rem) →
      editsInput es ++ rem = l ∧ rem.length < l.length ∧ wsOk es = true ∧
        insOkF true es = true) :
    ∀ (fuel : Nat) (l : List Char), l.length ≤ fuel →
      editsInput (anchScanF t fuel l) = l := by
  intro fuel
  induction fuel with
  | zero =>
    intro l hl
    have : l = [] := List.length_eq_zero.mp (Nat.le_zero.mp hl)
    subst this
    rfl
  | succ fuel ih =>
    intro l hl
    cases l with
    | nil => rfl
    | cons c rest =>
      simp only [List.length_cons, Nat.succ_le_succ_iff] at hl
      by_cases hnl : c = '\n'
      · subst hnl
        simp only [anchScanF, if_pos rfl]
        cases ht : t rest with
        | none =>
          simp only [Option.elim, editsInput]
          rw [ih rest hl]
        | some p =>
          obtain ⟨hti, htl, _, _⟩ := hc _ _ _ ht
          simp only [Option.elim]
          show '\n' :: editsInput (p.1 ++ anchScanF t fuel p.2) = '\n' :: rest
          rw [editsInput_append, ih p.2 (by omega), hti]
      · simp only [anchScanF, if_neg hnl, editsInput]
        rw [ih rest hl]

theorem anchScanF_wsOk (t : List Char → Option (List Edit × List Char))
    (hc : ∀ l es rem, t l = some (es, rem) →
      editsInput es ++ rem = l ∧ rem.length < l.length ∧ wsOk es = true ∧
        insOkF true es = true) :
    ∀ (fuel : Nat) (l : List Char), wsOk (anchScanF t fuel l) = true := by
  intro fuel
  induction fuel with
  | zero => intro l; exact wsOk_map_copy l
  | succ fuel ih =>
    intro l
    cases l with
    | nil => rfl
    | cons c rest =>
      by_cases hnl : c = '\n'
      · subst hnl
        simp only [anchScanF, if_pos rfl]
        cases ht : t rest with
        | none =>
          simp only [Option.elim, wsOk]
          exact ih rest
        | some p =>
          obtain ⟨_, _, htw, _⟩ := hc _ _ _ ht
          simp only [Option.elim]
          show wsOk (p.1 ++ anchScanF t fuel p.2) = true
          rw [wsOk_append]
          simp [htw, ih]
      · simp only [anchScanF, if_neg hnl, wsOk]
        exact ih rest

theorem anchScanF_insOk (t : List Char → Option (List Edit × List Char))
    (hc : ∀ l es rem, t l = some (es, rem) →
      editsInput es ++ rem = l ∧ rem.length < l.length ∧ wsOk es = true ∧
        insOkF true es = true) :
    ∀ (fuel : Nat) (l : List Char) (s : Bool),
      insOkF s (anchScanF t fuel l) = true := by
  intro fuel
  induction fuel with
  | zero => intro l s; exact insOkF_map_copy l s
  | succ fuel ih =>
    intro l s
    cases l with
    | nil => rfl
    | cons c rest =>
      by_cases hnl : c = '\n'
      · subst hnl
        simp only [anchScanF, if_pos rfl]
        cases ht : t rest with
        | none =>
          simp only [Option.elim, insOkF]
          exact ih rest _
        | some p =>
          obtain ⟨_, _, _, htik⟩ := hc _ _ _ ht
          simp only [Option.elim]
          show insOkF s (Edit.copy '\n' :: (p.1 ++ anchScanF t fuel p.2)) = true
          show insOkF (!('\n' == '<')) (p.1 ++ anchScanF t fuel p.2) = true
          rw [show (!('\n' == '<')) = true from by decide, insOkF_append]
          simp [htik, ih]
      · simp only [anchScanF, if_neg hnl, insOkF]
        exact ih rest _

theorem anchEdits_input (t : List Char → Option (List Edit × List Char))
    (hc : ∀ l es rem, t l = some (es, rem) →
      editsInput es ++ rem = l ∧ rem.length < l.length ∧ wsOk es = true ∧
        insOkF true es = true) (l : List Char) :
    editsInput (anchEdits t l) = l := by
  unfold anchEdits
  cases ht : t l with
  | none =>
    simp only [Option.elim]
    exact anchScanF_input t hc l.length l (Nat.le_refl _)
  | some p =>
    obtain ⟨hti, htl, _, _⟩ := hc _ _ _ ht
    simp only [Option.elim]
    rw [editsInput_append, anchScanF_input t hc l.length p.2 (by omega), hti]

theorem anchEdits_wsOk (t : List Char → Option (List Edit × List Char))
    (hc : ∀ l es rem, t l = some (es, rem) →
      editsInput es ++ rem = l ∧ rem.length < l.length ∧ wsOk es = true ∧
        insOkF true es = true) (l : List Char) :
    wsOk (anchEdits t l) = true := by
  unfold anchEdits
  cases ht : t l with
  | none =>
    simp only [Option.elim]
    exact anchScanF_wsOk t hc l.length l
  | some p =>
    obtain ⟨_, _, htw, _⟩ := hc _ _ _ ht
    simp only [Option.elim]
    rw [wsOk_append]
    simp [htw, anchScanF_wsOk t hc]

theorem anchEdits_insOk (t : List Char → Option (List Edit × List Char))
    (hc : ∀ l es rem, t l = some (es, rem) →
      editsInput es ++ rem = l ∧ rem.length < l.length ∧ wsOk es = true ∧
        insOkF true es = true) (l : List Char) :
    insOkF true (anchEdits t l) = true := by
  unfold anchEdits
  cases ht : t l with
  | none =>
    simp only [Option.elim]
    exact anchScanF_insOk t hc l.length l true
  | some p =>
    obtain ⟨_, _, _, htik⟩ := hc _ _ _ ht
    simp only [Option.elim]
    rw [insOkF_append]
    simp [htik, anchScanF_insOk t hc]

/-- `re.sub(r'(^|\n)(#{1,6})\s*([^\n]+)', r'\1\2 \3', text)` (line 110). -/
def headerFixRun (l : List Char) : List Char := editsOutput (anchEdits hdrTry l)

/-- `re.sub(r'(^|\n)-\s*([^\n]+)', r'\1- \2', text)` (line 111). -/
def listFixRun (l : List Char) : List Char := editsOutput (anchEdits listTry l)

/-! ### No three consecutive newlines after `re.sub(r'\n{3,}', '\n\n', text)` -/

/-- Scan for three consecutive newlines; `k` counts the newlines read
immediately before the current position. -/
def nlScan : Nat → List Char → Bool
  | _, [] => false
  | k, c :: rest =>
    if c = '\n' then (if 2 ≤ k then true else nlScan (k + 1) rest)
    else nlScan 0 rest

/-- The length of the leading newline run. -/
def leadNl (l : List Char) : Nat := (l.takeWhile (· = '\n')).length

theorem leadNl_dropWhile (l : List Char) : leadNl (l.dropWhile (· = '\n')) = 0 := by
  unfold leadNl
  cases hd : l.dropWhile (· = '\n') with
  | nil => rfl
  | cons x xs =>
    have hx := dropWhile_head_false l x xs hd
    rw [List.takeWhile_cons, if_neg (by simpa using hx)]
    rfl

theorem clnEditsF_nlScan : ∀ (fuel : Nat) (l : List Char), l.length ≤ fuel →
    ∀ k, k + min 2 (leadNl l) ≤ 2 →
      nlScan k (editsOutput (clnEditsF fuel l)) = false := by
  intro fuel
  induction fuel with
  | zero =>
    intro l hl k _
    have : l = [] := List.length_eq_zero.mp (Nat.le_zero.mp hl)
    subst this
    rfl
  | succ fuel ih =>
    intro l hl k hk
    cases l with
    | nil => rfl
    | cons c rest =>
      simp only [List.length_cons, Nat.succ_le_succ_iff] at hl
      by_cases hc : c = '\n'
      · subst hc
        have hlead : leadNl ('\n' :: rest) = (rest.takeWhile (· = '\n')).length + 1 := by
          unfold leadNl
          rw [List.takeWhile_cons, if_pos (by simp)]
          simp
        by_cases h2 : 2 ≤ (rest.takeWhile (· = '\n')).length
        · have hk0 : k = 0 := by
            rw [hlead] at hk
            omega
          subst hk0
          simp only [clnEditsF, if_pos h2, if_pos rfl]
          show nlScan 0 ('\n' :: editsOutput ((rest.takeWhile (· = '\n')).map Edit.del ++
            Edit.ins '\n' :: clnEditsF fuel (rest.dropWhile (· = '\n')))) = false
          rw [editsOutput_append, editsOutput_map_del]
          show nlScan 0 ('\n' :: '\n' ::
            editsOutput (clnEditsF fuel (rest.dropWhile (· = '\n')))) = false
          show nlScan 2 (editsOutput (clnEditsF fuel (rest.dropWhile (· = '\n')))) = false
          refine ih _ ?_ 2 ?_
          · have := (List.dropWhile_sublist (· = '\n') (l := rest)).length_le
            omega
          · rw [leadNl_dropWhile]
            omega
        · simp only [clnEditsF, if_neg h2, if_pos rfl]
          show nlScan k ('\n' :: editsOutput (clnEditsF fuel rest)) = false
          have hkle : ¬ 2 ≤ k := by
            rw [hlead] at hk
            omega
          show (if ('\n' : Char) = '\n' then
            (if 2 ≤ k then true else nlScan (k + 1)
              (editsOutput (clnEditsF fuel rest))) else
            nlScan 0 (editsOutput (clnEditsF fuel rest))) = false
          rw [if_pos rfl, if_neg hkle]
          refine ih _ hl (k + 1) ?_
          have hleadr : leadNl rest = (rest.takeWhile (· = '\n')).length := rfl
          rw [hlead] at hk
          rw [hleadr]
          omega
      · simp only [clnEditsF, if_neg hc]
        show nlScan k (c :: editsOutput (clnEditsF fuel rest)) = false
        show (if c = '\n' then
          (if 2 ≤ k then true else nlScan (k + 1)
            (editsOutput (clnEditsF fuel rest))) else
          nlScan 0 (editsOutput (clnEditsF fuel rest))) = false
        rw [if_neg hc]
        refine ih _ hl 0 ?_
        have : min 2 (leadNl rest) ≤ 2 := Nat.min_le_left _ _
        omega

theorem collapseNl_nlScan (l : List Char) : nlScan 0 (collapseNl l) = false := by
  unfold collapseNl
  refine clnEditsF_nlScan l.length l (Nat.le_refl _) 0 ?_
  have : min 2 (leadNl l) ≤ 2 := Nat.min_le_left _ _
  omega

theorem nlScan_triple : ∀ (a : List Char) (k : Nat) (b : List Char),
    nlScan k (a ++ '\n' :: '\n' :: '\n' :: b) = true := by
  intro a
  induction a with
  | nil =>
    intro k b
    by_cases h2 : 2 ≤ k
    · simp [nlScan, h2]
    · by_cases h1 : 2 ≤ k + 1
      · simp [nlScan, h2, h1]
      · simp [nlScan, h2, h1]
  | cons x a' ih =>
    intro k b
    by_cases hx : x = '\n'
    · subst hx
      by_cases h2 : 2 ≤ k
      · simp [nlScan, h2]
      · simp only [List.cons_append]
        show (if ('\n' : Char) = '\n' then
          (if 2 ≤ k then true else nlScan (k + 1) (a' ++ '\n' :: '\n' :: '\n' :: b))
          else nlScan 0 (a' ++ '\n' :: '\n' :: '\n' :: b)) = true
        rw [if_pos rfl, if_neg h2]
        exact ih (k + 1) b
    · simp only [List.cons_append]
      show (if x = '\n' then
        (if 2 ≤ k then true else nlScan (k + 1) (a' ++ '\n' :: '\n' :: '\n' :: b))
        else nlScan 0 (a' ++ '\n' :: '\n' :: '\n' :: b)) = true
      rw [if_neg hx]
      exact ih 0 b

/-! ### The replacement table (src/response_formatter.py lines 37-81)

A small backtracking matcher for exactly the pattern forms used in the
`replacements` list: case-insensitive literals (`re.IGNORECASE`), the
two-way literal alternation `(?:b|strong)`, greedy character-class stars
(`[^>]*`, `[^"]*`), capturing greedy class stars (`([^"]*)`) and the
capturing lazy any-character star `(.*?)` under `re.DOTALL`.  The `Nat`
fuel bounds the backtracking depth and is chosen amply in `pySub`. -/

inductive RE where
  | lit (s : List Char)
  | alt (a b : List Char)
  | star (p : Char → Bool)
  | grpStar (p : Char → Bool)
  | grpGo (p : Char → Bool) (acc : List Char)
  | lazyStar
  | lazyGo (acc : List Char)

inductive RepItem where
  | lit (c : Char)
  | grp (i : Nat)

/-- Case-insensitive prefix test (`re.IGNORECASE`). -/
def ciPrefixOf : List Char → List Char → Bool
  | [], _ => true
  | _ :: _, [] => false
  | a :: as, b :: bs => (a.toLower == b.toLower) && ciPrefixOf as bs

/-- One match attempt at the start of `input`: the unconsumed remainder and
the captures, in pattern order. -/
def reMatch : Nat → List RE → List Char → Option (List Char × List (List Char))
  | 0, _, _ => none
  | _ + 1, [], input => some (input, [])
  | fuel + 1, RE.lit s :: ps, input =>
    if ciPrefixOf s input then reMatch fuel ps (input.drop s.length) else none
  | fuel + 1, RE.alt a b :: ps, input =>
    if ciPrefixOf a input then
      Option.elim (reMatch fuel ps (input.drop a.length))
        (if ciPrefixOf b input then reMatch fuel ps (input.drop b.length) else none)
        (fun r => some r)
    else if ciPrefixOf b input then reMatch fuel ps (input.drop b.length) else none
  | fuel + 1, RE.star p :: ps, input =>
    match input with
    | c :: rest =>
      if p c then
        Option.elim (reMatch fuel (RE.star p :: ps) rest)
          (reMatch fuel ps (c :: rest))
          (fun r => some r)
      else reMatch fuel ps (c :: rest)
    | [] => reMatch fuel ps []
  | fuel + 1, RE.grpStar p :: ps, input => reMatch fuel (RE.grpGo p [] :: ps) input
  | fuel + 1, RE.grpGo p acc :: ps, input =>
    match input with
    | c :: rest =>
      if p c then
        Option.elim (reMatch fuel (RE.grpGo p (c :: acc) :: ps) rest)
          (Option.elim (reMatch fuel ps (c :: rest)) none
            (fun r => some (r.1, acc.reverse :: r.2)))
          (fun r => some r)
      else
        Option.elim (reMatch fuel ps (c :: rest)) none
          (fun r => some (r.1, acc.reverse :: r.2))
    | [] =>
      Option.elim (reMatch fuel ps []) none
        (fun r => some (r.1, acc.reverse :: r.2))
  | fuel + 1, RE.lazyStar :: ps, input => reMatch fuel (RE.lazyGo [] :: ps) input
  | fuel + 1, RE.lazyGo acc :: ps, input =>
    Option.elim (reMatch fuel ps input)
      (match input with
       | c :: rest => reMatch fuel (RE.lazyGo (c :: acc) :: ps) rest
       | [] => none)
      (fun r => some (r.1, acc.reverse :: r.2))

/-- Instantiate a replacement template with the captures. -/
def applyRep (rep : List RepItem) (caps : List (List Char)) : List Char :=
  rep.flatMap (fun it =>
    match it with
    | RepItem.lit c => [c]
    | RepItem.grp i => caps.getD i [])

/-- The `re.sub` scan: try a match at every position, emit the replacement
and resume after the consumed part. -/
def reSubF : Nat → List RE → List RepItem → List Char → List Char
  | 0, _, _, input => input
  | _ + 1, _, _, [] => []
  | fuel + 1, ps, rep, c :: rest =>
    Option.elim (reMatch ((c :: rest).length * 4 + 64) ps (c :: rest))
      (c :: reSubF fuel ps rep rest)
      (fun pr => applyRep rep pr.2 ++ reSubF fuel ps rep pr.1)

def pySub (ps : List RE) (rep : List RepItem) (l : List Char) : List Char :=
  reSubF (l.length + 1) ps rep l

def rlit (s : String) : RE := RE.lit s.data

def rlits (s : String) : List RepItem := s.data.map RepItem.lit

def pNotGt (c : Char) : Bool := !(c == '>')

def pNotQuote (c : Char) : Bool := !(c == '"')

/-- `(r'<hK[^>]*>(.*?)</hK>', r'#... \1\n')`. -/
def hdrRule (tag hashes : String) : List RE × List RepItem :=
  ([rlit ("<" ++ tag), RE.star pNotGt, rlit ">", RE.lazyStar,
    rlit ("</" ++ tag ++ ">")],
   rlits (hashes ++ " ") ++ [RepItem.grp 0] ++ rlits "\n")

/-- `(r'<X[^>]*>(.*?)</X>', before + \1 + after)` for a simple tag pair. -/
def tagRule (tag before after : String) : List RE × List RepItem :=
  ([rlit ("<" ++ tag), RE.star pNotGt, rlit ">", RE.lazyStar,
    rlit ("</" ++ tag ++ ">")],
   rlits before ++ [RepItem.grp 0] ++ rlits after)

/-- The `replacements` list of src/response_formatter.py lines 37-77, in
source order. -/
def replacements : List (List RE × List RepItem) :=
  [hdrRule "h1" "#", hdrRule "h2" "##", hdrRule "h3" "###",
   hdrRule "h4" "####", hdrRule "h5" "#####", hdrRule "h6" "######",
   ([rlit "<", RE.alt "b".data "strong".data, RE.star pNotGt, rlit ">",
     RE.lazyStar, rlit "</", RE.alt "b".data "strong".data, rlit ">"],
    rlits "**" ++ [RepItem.grp 0] ++ rlits "**"),
   ([rlit "<", RE.alt "i".data "em".data, RE.star pNotGt, rlit ">",
     RE.lazyStar, rlit "</", RE.alt "i".data "em".data, rlit ">"],
    rlits "*" ++ [RepItem.grp 0] ++ rlits "*"),
   tagRule "code" "`" "`",
   ([rlit "<a", RE.star pNotGt, rlit "href=\"", RE.grpStar pNotQuote,
     rlit "\"", RE.star pNotGt, rlit ">", RE.lazyStar, rlit "</a>"],
    rlits "[" ++ [RepItem.grp 1] ++ rlits "](" ++ [RepItem.grp 0] ++ rlits ")"),
   ([rlit "<img", RE.star pNotGt, rlit "src=\"", RE.grpStar pNotQuote,
     rlit "\"", RE.star pNotGt, rlit "alt=\"", RE.grpStar pNotQuote,
     rlit "\"", RE.star pNotGt, rlit "/>"],
    rlits "![" ++ [RepItem.grp 1] ++ rlits "](" ++ [RepItem.grp 0] ++ rlits ")"),
   ([rlit "<br", RE.star pNotGt, rlit "/>"], rlits "\n"),
   ([rlit "<br>"], rlits "\n"),
   ([rlit "</br>"], []),
   tagRule "p" "" "\n\n",
   tagRule "div" "" "\n",
   tagRule "span" "" "",
   ([rlit "&nbsp;"], rlits " "),
   ([rlit "&amp;"], rlits "&"),
   ([rlit "&lt;"], rlits "<"),
   ([rlit "&gt;"], rlits ">"),
   ([rlit "&quot;"], rlits "\""),
   ([rlit "&apos;"], rlits "\x27"),
   ([rlit "&#8377;"], rlits "₹"),
   ([rlit "&#x20b9;"], rlits "₹"),
   ([rlit "&mdash;"], rlits "—"),
   ([rlit "&ndash;"], rlits "–"),
   ([rlit "&bull;"], rlits "•")]

/-- Lines 80-81: fold the substitutions over the text in order. -/
def applyReplacements (l : List Char) : List Char :=
  replacements.foldl (fun acc pr => pySub pr.1 pr.2 acc) l

/-! ### `convert_html_to_markdown` assembled -/

/-- Lines 87-115: the cleanup passes after the tag removal of line 84, in
source order. -/
def postTagPipeline (l : List Char) : List Char :=
  collapseNl (stripEnds (listFixRun (headerFixRun (italCloseRun (italOpenRun
    (boldCloseRun (boldOpenRun (processLines (collapseSpTab (sub87Run l))))))))))

/-- `convert_html_to_markdown` (src/response_formatter.py lines 6-117).
BeautifulSoup parsing, script/style/meta removal and the ul/ol list
conversion (lines 12-34) are abstracted into the `parse` oracle; the rest
follows the source: the empty-input early return (lines 8-9), the
`replacements` table (lines 37-81), the tag removal (line 84) and the
cleanup passes (lines 87-115). -/
def convert_html_to_markdown (parse : String → String) (html : String) : String :=
  if html = "" then ""
  else String.mk (postTagPipeline (removeTags (applyReplacements (parse html).data)))

theorem editsOutput_preserves (es : List Edit) (l : List Char)
    (hin : editsInput es = l) (hws : wsOk es = true) (hik : insOkF true es = true)
    (h : runTag TagState.clear l ≠ TagState.bad) :
    runTag TagState.clear (editsOutput es) ≠ TagState.bad := by
  apply edits_preserve_notBad es hws hik
  rw [hin]
  exact h

theorem postTagPipeline_notBad (l : List Char)
    (h : runTag TagState.clear l ≠ TagState.bad) :
    runTag TagState.clear (postTagPipeline l) ≠ TagState.bad := by
  have h1 : runTag TagState.clear (sub87Run l) ≠ TagState.bad := by
    show runTag TagState.clear (editsOutput (sub87EditsF l.length l)) ≠ TagState.bad
    exact editsOutput_preserves _ _ (sub87EditsF_input _ _) (sub87EditsF_wsOk _ _)
      (sub87EditsF_insOk _ _ _) h
  have h2 : runTag TagState.clear (collapseSpTab (sub87Run l)) ≠ TagState.bad := by
    show runTag TagState.clear
      (editsOutput (spTabEditsF (sub87Run l).length (sub87Run l))) ≠ TagState.bad
    exact editsOutput_preserves _ _ (spTabEditsF_input _ _) (spTabEditsF_wsOk _ _)
      (spTabEditsF_insOk _ _ _) h1
  have h3 : runTag TagState.clear (processLines (collapseSpTab (sub87Run l))) ≠
      TagState.bad := by
    show runTag TagState.clear (editsOutput (lineProcEdits true
      (splitNl (collapseSpTab (sub87Run l))))) ≠ TagState.bad
    refine editsOutput_preserves _ _ ?_ (lineProcEdits_wsOk _ _)
      (lineProcEdits_insOk _ _) h2
    rw [lineProcEdits_input]
    exact joinNl_splitNlF _ _ (Nat.le_refl _)
  have h4 : runTag TagState.clear (boldOpenRun (processLines (collapseSpTab
      (sub87Run l)))) ≠ TagState.bad := by
    show runTag TagState.clear (editsOutput (openFixF ['*', '*'] _ _)) ≠ TagState.bad
    exact editsOutput_preserves _ _ (openFixF_input _ _ _) (openFixF_wsOk _ _ _)
      (openFixF_insOk _ _ _ _) h3
  have h5 : runTag TagState.clear (boldCloseRun (boldOpenRun (processLines
      (collapseSpTab (sub87Run l))))) ≠ TagState.bad := by
    show runTag TagState.clear (editsOutput (closeFixF ['*', '*'] _ _)) ≠ TagState.bad
    exact editsOutput_preserves _ _ (closeFixF_input _ _ _) (closeFixF_wsOk _ _ _)
      (closeFixF_insOk _ _ _ _) h4
  have h6 : runTag TagState.clear (italOpenRun (boldCloseRun (boldOpenRun
      (processLines (collapseSpTab (sub87Run l)))))) ≠ TagState.bad := by
    show runTag TagState.clear (editsOutput (openFixF ['*'] _ _)) ≠ TagState.bad
    exact editsOutput_preserves _ _ (openFixF_input _ _ _) (openFixF_wsOk _ _ _)
      (openFixF_insOk _ _ _ _) h5
  have h7 : runTag TagState.clear (italCloseRun (italOpenRun (boldCloseRun
      (boldOpenRun (processLines (collapseSpTab (sub87Run l))))))) ≠
      TagState.bad := by
    show runTag TagState.clear (editsOutput (closeFixF ['*'] _ _)) ≠ TagState.bad
    exact editsOutput_preserves _ _ (closeFixF_input _ _ _) (closeFixF_wsOk _ _ _)
      (closeFixF_insOk _ _ _ _) h6
  have h8 : runTag TagState.clear (headerFixRun (italCloseRun (italOpenRun
      (boldCloseRun (boldOpenRun (processLines (collapseSpTab (sub87Run l)))))))) ≠
      TagState.bad := by
    show runTag TagState.clear (editsOutput (anchEdits hdrTry _)) ≠ TagState.bad
    exact editsOutput_preserves _ _ (anchEdits_input hdrTry hdrTry_some _)
      (anchEdits_wsOk hdrTry hdrTry_some _) (anchEdits_insOk hdrTry hdrTry_some _) h7
  have h9 : runTag TagState.clear (listFixRun (headerFixRun (italCloseRun
      (italOpenRun (boldCloseRun (boldOpenRun (processLines (collapseSpTab
      (sub87Run l))))))))) ≠ TagState.bad := by
    show runTag TagState.clear (editsOutput (anchEdits listTry _)) ≠ TagState.bad
    exact editsOutput_preserves _ _ (anchEdits_input listTry listTry_some _)
      (anchEdits_wsOk listTry listTry_some _) (anchEdits_insOk listTry listTry_some _) h8
  have h10 : runTag TagState.clear (stripEnds (listFixRun (headerFixRun
      (italCloseRun (italOpenRun (boldCloseRun (boldOpenRun (processLines
      (collapseSpTab (sub87Run l)))))))))) ≠ TagState.bad := by
    show runTag TagState.clear (editsOutput (stripEdits _)) ≠ TagState.bad
    exact editsOutput_preserves _ _ (stripEdits_input _) (stripEdits_wsOk _)
      (stripEdits_insOk _ _) h9
  show runTag TagState.clear (editsOutput (clnEditsF _ _)) ≠ TagState.bad
  exact editsOutput_preserves _ _ (clnEditsF_input _ _) (clnEditsF_wsOk _ _)
    (clnEditsF_insOk _ _ _) h10

theorem nil_no_decomp_tag (a b c : List Char) :
    ([] : List Char) ≠ a ++ '<' :: (b ++ '>' :: c) := by
  intro h
  have := congrArg List.length h
  simp [List.length_append] at this
  omega

theorem nil_no_decomp_nl (a b : List Char) :
    ([] : List Char) ≠ a ++ '\n' :: '\n' :: '\n' :: b := by
  intro h
  have := congrArg List.length h
  simp [List.length_append] at this
  omega

/-- **C10** (amended).  `convert_html_to_markdown` returns the empty string
on empty input; and for every parse oracle and every input, the output
contains no substring matching the tag-removal regex `<[^>]+>` — a '<'
followed by one or more non-'>' characters and a '>' — and never contains
three or more consecutive newline characters.  (The original claim's
stronger reading — no '<'...'>' substring at all — is refuted by
`C10_counterexample`: a bare `<>` survives, because `[^>]+` requires at
least one character between the brackets.) -/
theorem C10_convert_cleanup (parse : String → String) (html : String) :
    convert_html_to_markdown parse "" = "" ∧
    (¬ ∃ a b c : List Char, (convert_html_to_markdown parse html).data =
        a ++ '<' :: (b ++ '>' :: c) ∧ b ≠ [] ∧ '>' ∉ b) ∧
    (¬ ∃ a b : List Char, (convert_html_to_markdown parse html).data =
        a ++ '\n' :: '\n' :: '\n' :: b) := by
  refine ⟨by simp [convert_html_to_markdown], ?_, ?_⟩
  · rintro ⟨a, b, c, heq, hb, hgt⟩
    by_cases hh : html = ""
    · rw [hh] at heq
      simp only [convert_html_to_markdown, if_pos rfl] at heq
      exact nil_no_decomp_tag a b c heq
    · simp only [convert_html_to_markdown, if_neg hh] at heq
      have heq2 : postTagPipeline (removeTags (applyReplacements (parse html).data)) =
          a ++ '<' :: (b ++ '>' :: c) := heq
      have hbad := bad_of_decomp a b c hb hgt
      have hnot := postTagPipeline_notBad
        (removeTags (applyReplacements (parse html).data))
        (removeTags_notBad (applyReplacements (parse html).data))
      rw [heq2] at hnot
      exact hnot hbad
  · rintro ⟨a, b, heq⟩
    by_cases hh : html = ""
    · rw [hh] at heq
      simp only [convert_html_to_markdown, if_pos rfl] at heq
      exact nil_no_decomp_nl a b heq
    · simp only [convert_html_to_markdown, if_neg hh] at heq
      have heq2 : collapseNl (stripEnds (listFixRun (headerFixRun (italCloseRun
          (italOpenRun (boldCloseRun (boldOpenRun (processLines (collapseSpTab
          (sub87Run (removeTags (applyReplacements (parse html).data)))))))))))) =
          a ++ '\n' :: '\n' :: '\n' :: b := heq
      have hfalse := collapseNl_nlScan (stripEnds (listFixRun (headerFixRun
        (italCloseRun (italOpenRun (boldCloseRun (boldOpenRun (processLines
        (collapseSpTab (sub87Run (removeTags (applyReplacements
        (parse html).data))))))))))))
      rw [heq2] at hfalse
      rw [nlScan_triple] at hfalse
      cases hfalse

/-- The BeautifulSoup oracle for the C10 counterexample: the parser returns
the text unchanged. -/
def cexParse : String → String := fun _ => "a<>b>c"

/-- **C10** counterexample to the original claim: on input `a<>b>c` the
output still contains the substring `<>` — a '<' later followed by a '>' —
because the removal regex `<[^>]+>` needs at least one character between
the brackets. -/
theorem C10_counterexample :
    ∃ a b c : List Char, (convert_html_to_markdown cexParse "a<>b>c").data =
      a ++ '<' :: (b ++ '>' :: c) :=
  ⟨['a'], [], ['b', '>', 'c'], by decide⟩
